import Mathlib

/-!
# Named-places hash table (`src/hash_m.cpp`)

A shallow embedding of the classes `Place` and `HashTable` and of the member
functions `hashFunction`, `resize`, `insert`, `findByName` and
`findByNameAndState`, followed by the properties proved about them.

Conventions of the embedding.

* A `std::string` is the list of its `char` codes.  `char` is signed on the
  usual targets, so a code is an `Int` and a byte above `0x7f` is negative.
* `%` on C++ integers truncates towards zero: it is `Int.tmod`.
* An `int` has 32 bits.  Inside `hashFunction` nothing can overflow (the
  `long long` accumulator is below the capacity in absolute value before every
  step).  `capacity *= 2` and `size++` overflow when the exact value leaves the
  range of `int`; a signed overflow has no defined result.
* A chain of `HashNode`s is the list of the records it links, head first, and
  the bucket array is the list of its chains.
* Every operation returns an `Option`: `none` stands for an execution without a
  defined result (a bucket index outside the array, a remainder by zero, an
  array allocation of negative length, a signed overflow).
* The definitions whose name ends in `Ideal` are the same operations with `int`
  taken as the mathematical integers; they serve the statements that ignore
  machine-integer overflow, and every result of an operation is a result of its
  `Ideal` counterpart.
-/

namespace GeoPlace

/-! ## Data model -/

/-- A C++ `double`, carried by its 64-bit pattern: the table stores and returns
such values and never computes on them. -/
structure Double where
  bits : Nat
deriving DecidableEq

/-- A `std::string`, as the list of its character codes. -/
abbrev CString := List Int

/-- Class `Place`: one named place. -/
structure Place where
  code : Int
  state : CString
  name : CString
  population : Int
  area : Double
  latitude : Double
  longitude : Double
  road_intersection : Int
  distance : Double
deriving DecidableEq

/-- Class `HashTable`: the bucket array, the number of buckets and the number of
stored records. -/
structure HashTable where
  table : List (List Place)
  capacity : Int
  size : Int
deriving DecidableEq

/-- The multiplier `prime` of `hashFunction`. -/
def prime : Int := 31

/-- One round of the loop of `hashFunction`:
`hash = (hash * prime + c) % capacity`. -/
def hashStep (capacity : Int) (hash : Int) (c : Int) : Int :=
  Int.tmod (hash * prime + c) capacity

/-- The value of `hash` when the loop of `hashFunction` is left. -/
def hashLoop (capacity : Int) (key : CString) : Int :=
  key.foldl (hashStep capacity) 0

/-- Member `hashFunction`: the loop, then `return hash % capacity`.  With
`capacity = 0` the remainder is undefined. -/
def hashFunction (capacity : Int) (key : CString) : Option Int :=
  if capacity = 0 then none else some (Int.tmod (hashLoop capacity key) capacity)

/-- The allocation `new HashNode*[n]()`: `n` empty chains, and no result for a
negative `n`. -/
def newArray (n : Int) : Option (List (List Place)) :=
  if n < 0 then none else some (List.replicate n.toNat [])

/-- The two assignments `node->next = table[index]; table[index] = node;` that
link a record at the front of the chain of bucket `index`.  There is no result
when `index` is not a position of the array. -/
def pushFront (table : List (List Place)) (index : Int) (place : Place) :
    Option (List (List Place)) :=
  if 0 ≤ index then
    match table[index.toNat]? with
    | some chain => some (table.set index.toNat (place :: chain))
    | none => none
  else none

/-- The inner `while` loop of `resize`: the nodes of one old chain, from its head
on, are linked at the front of their new buckets. -/
def rehashChain (capacity : Int) :
    List Place → List (List Place) → Option (List (List Place))
  | [], newTable => some newTable
  | current :: next, newTable => do
      let newIndex ← hashFunction capacity current.name
      let newTable1 ← pushFront newTable newIndex current
      rehashChain capacity next newTable1

/-- The outer `for` loop of `resize`, with `n` rounds left and `i` the index of
the next old bucket. -/
def rehashFrom (table : List (List Place)) (capacity : Int) :
    Nat → Nat → List (List Place) → Option (List (List Place))
  | _, 0, newTable => some newTable
  | i, n + 1, newTable => do
      let current ← table[i]?
      let newTable1 ← rehashChain capacity current newTable
      rehashFrom table capacity (i + 1) n newTable1

/-- The largest value of an `int`. -/
def INT_MAX : Int := 2147483647

/-- The smallest value of an `int`. -/
def INT_MIN : Int := -2147483648

/-- The result of an `int` operation whose exact value is `x`: `x` itself when it
is in the range of `int`, and no defined result on signed overflow. -/
def toInt (x : Int) : Option Int :=
  if INT_MIN ≤ x ∧ x ≤ INT_MAX then some x else none

/-- Member `resize`: the capacity is doubled (`capacity *= 2` on an `int`), a
fresh array is allocated and every node of every old bucket is relinked under
the new capacity. -/
def resize (t : HashTable) : Option HashTable := do
  let oldCapacity := t.capacity
  let capacity ← toInt (t.capacity * 2)
  let newTable ← newArray capacity
  let newTable1 ← rehashFrom t.table capacity 0 oldCapacity.toNat newTable
  some { table := newTable1, capacity := capacity, size := t.size }

/-- The test `(double)size / capacity > LOAD_FACTOR` of `insert`, with
`LOAD_FACTOR = 0.75`.  Both operands are `int`s, so the conversions are exact,
and the rounded quotient lies on the same side of `0.75` as the exact one
(`0.75` is a `double`, rounding is monotone, and a quotient of two `int`s above
`3/4` exceeds it by at least `1 / (4 * capacity)`, far more than one rounding
step); the exact quotient is therefore used.  A division by `0.0` gives an
infinity for a positive `size` and a NaN for `size = 0`. -/
def loadFactorExceeded (size capacity : Int) : Bool :=
  if capacity = 0 then decide (0 < size)
  else decide ((size : ℚ) / (capacity : ℚ) > 3 / 4)

/-- The constructor `HashTable(int initialCapacity)`: an array of
`initialCapacity` empty chains and `size = 0`. -/
def HashTable.init (initialCapacity : Int) : Option HashTable := do
  let table ← newArray initialCapacity
  some { table := table, capacity := initialCapacity, size := 0 }

/-- Member `insert`; its last statement is `size++` on an `int`. -/
def insert (t : HashTable) (place : Place) : Option HashTable := do
  let t1 ← (if loadFactorExceeded t.size t.capacity then resize t else some t)
  let index ← hashFunction t1.capacity place.name
  let table1 ← pushFront t1.table index place
  let size ← toInt (t1.size + 1)
  some { table := table1, capacity := t1.capacity, size := size }

/-- Member `findByName`: the records of the chain of bucket
`hashFunction(name)` whose name is `name`, in chain order. -/
def findByName (t : HashTable) (name : CString) : Option (List Place) := do
  let index ← hashFunction t.capacity name
  if 0 ≤ index then
    let current ← t.table[index.toNat]?
    some (current.filter (fun p => decide (p.name = name)))
  else none

/-- Member `findByNameAndState`: the first record of the chain of bucket
`hashFunction(name)` with that name and that state; the inner `none` is the
`nullptr` returned when there is none. -/
def findByNameAndState (t : HashTable) (name state : CString) :
    Option (Option Place) := do
  let index ← hashFunction t.capacity name
  if 0 ≤ index then
    let current ← t.table[index.toNat]?
    some (current.find? (fun p => decide (p.name = name ∧ p.state = state)))
  else none

/-- A run of calls of `insert`, one per record, in the order of the list (the
loading loop of `main`). -/
def insertAll (t : HashTable) (places : List Place) : Option HashTable :=
  places.foldlM insert t

/-- A table constructed with `initialCapacity`, passed as an `int`, and then
filled with `places`. -/
def build (initialCapacity : Int) (places : List Place) : Option HashTable :=
  (toInt initialCapacity).bind
    (fun capacity => (HashTable.init capacity).bind (fun t => insertAll t places))

/-! ## The operations with `int` taken as unbounded -/

/-- Member `resize` with `int` taken as the mathematical integers: `capacity *= 2`
never overflows. -/
def resizeIdeal (t : HashTable) : Option HashTable := do
  let oldCapacity := t.capacity
  let capacity := t.capacity * 2
  let newTable ← newArray capacity
  let newTable1 ← rehashFrom t.table capacity 0 oldCapacity.toNat newTable
  some { table := newTable1, capacity := capacity, size := t.size }

/-- Member `insert` with `int` taken as the mathematical integers: neither
`capacity *= 2` nor `size++` overflows. -/
def insertIdeal (t : HashTable) (place : Place) : Option HashTable := do
  let t1 ← (if loadFactorExceeded t.size t.capacity then resizeIdeal t else some t)
  let index ← hashFunction t1.capacity place.name
  let table1 ← pushFront t1.table index place
  some { table := table1, capacity := t1.capacity, size := t1.size + 1 }

/-- A run of calls of `insertIdeal`, one per record. -/
def insertAllIdeal (t : HashTable) (places : List Place) : Option HashTable :=
  places.foldlM insertIdeal t

/-- A table constructed with `initialCapacity` and then filled with `places`,
with `int` taken as the mathematical integers. -/
def buildIdeal (initialCapacity : Int) (places : List Place) : Option HashTable :=
  (HashTable.init initialCapacity).bind (fun t => insertAllIdeal t places)

/-! ## Predicates and auxiliary notions used in the statements -/

/-- Every character code of the key is non-negative (a plain ASCII string). -/
def nonNegative (key : CString) : Prop := ∀ c ∈ key, 0 ≤ c

instance (key : CString) : Decidable (nonNegative key) :=
  inferInstanceAs (Decidable (∀ c ∈ key, 0 ≤ c))

/-- Every record of the list has a name with non-negative character codes. -/
def namesNonNegative (places : List Place) : Prop := ∀ p ∈ places, nonNegative p.name

instance (places : List Place) : Decidable (namesNonNegative places) :=
  inferInstanceAs (Decidable (∀ p ∈ places, nonNegative p.name))

/-- Every record of bucket `j` hashes to `j` under `capacity`. -/
def Placed (capacity : Int) (table : List (List Place)) : Prop :=
  ∀ (j : Nat) (chain : List Place), table[j]? = some chain →
    ∀ p ∈ chain, hashFunction capacity p.name = some (j : Int)

/-- The representation invariant of the class: a positive capacity, and a bucket
array with exactly `capacity` slots. -/
structure WellFormed (t : HashTable) : Prop where
  capacity_pos : 0 < t.capacity
  length_eq : (t.table.length : Int) = t.capacity

/-- The first step of `insertIdeal`: the table itself, or the resized table when
the load factor is exceeded. -/
def grownIdeal (t : HashTable) : Option HashTable :=
  if loadFactorExceeded t.size t.capacity then resizeIdeal t else some t

/-- Some doubling `capacity * 2 ^ k` of the capacity is still an `int` and takes
`n` more records on top of the `size` stored ones: the last of them is inserted
at a load of at most 0.75. -/
def Fits (capacity size : Int) (n : Nat) : Prop :=
  ∃ k : Nat, capacity * 2 ^ k ≤ INT_MAX ∧
    4 * (size + (n : Int) - 1) ≤ 3 * (capacity * 2 ^ k)

/-- The capacity of the default table as a function of the number of stored
records, for up to 1213 records. -/
def defaultSchedule (n : Int) : Int :=
  if n ≤ 76 then 101 else if n ≤ 152 then 202 else if n ≤ 304 then 404
  else if n ≤ 607 then 808 else 1616

/-- A call of one of the three public member functions. -/
inductive Call where
  | insert (place : Place)
  | findByName (name : CString)
  | findByNameAndState (name state : CString)

/-- The table after a call, with `int` taken as the mathematical integers.  The
two lookups are `const` member functions: they return a value and leave the
object as it is. -/
def callIdeal (t : HashTable) : Call → Option HashTable
  | Call.insert place => insertIdeal t place
  | Call.findByName name => (findByName t name).map (fun _ => t)
  | Call.findByNameAndState name state => (findByNameAndState t name state).map (fun _ => t)

/-- A sequence of calls on one table, in order, with `int` taken as the
mathematical integers. -/
def runCallsIdeal (t : HashTable) (calls : List Call) : Option HashTable :=
  calls.foldlM callIdeal t

/-- The name that a call hashes has non-negative character codes. -/
def Call.nonNegative : Call → Prop
  | Call.insert place => GeoPlace.nonNegative place.name
  | Call.findByName name => GeoPlace.nonNegative name
  | Call.findByNameAndState name _ => GeoPlace.nonNegative name

/-- The polynomial value of a key, in the words of the specification:
`c_0 * 31^(n-1) + c_1 * 31^(n-2) + ... + c_(n-1) * 31^0`, without any
reduction. -/
def polynomial : CString → Int
  | [] => 0
  | c :: rest => c * prime ^ rest.length + polynomial rest

/-! ## Sample data -/

/-- A record with the given identifier, state and name, the other fields zero. -/
def mkPlace (code : Int) (state name : CString) : Place :=
  { code := code, state := state, name := name, population := 0,
    area := ⟨0⟩, latitude := ⟨0⟩, longitude := ⟨0⟩, road_intersection := 0,
    distance := ⟨0⟩ }

/-- The name `Springfield`. -/
def springfield : CString := [83, 112, 114, 105, 110, 103, 102, 105, 101, 108, 100]

/-- The state code `IL`. -/
def stateIL : CString := [73, 76]

/-- The state code `MA`. -/
def stateMA : CString := [77, 65]

/-- The state code `TX`. -/
def stateTX : CString := [84, 88]

/-- Springfield, Illinois. -/
def springfieldIL : Place := mkPlace 1 stateIL springfield

/-- Springfield, Massachusetts. -/
def springfieldMA : Place := mkPlace 2 stateMA springfield

/-- A one-character string made of the byte `0xff`, a `char` of code `-1`. -/
def byteFF : CString := [-1]

/-- The numbered Springfield records `0 .. n - 1`: same name, same state,
different identifiers. -/
def numbered (n : Nat) : List Place :=
  (List.range n).map (fun i => mkPlace (i : Int) stateIL springfield)

/-- A one-character string made of the byte `0x9b`, a `char` of code `-101`. -/
def byte9B : CString := [-101]

/-! ## The hash function -/

theorem hashStep_range {m h c : Int} (hm : 0 < m) (hh : 0 ≤ h) (hc : 0 ≤ c) :
    0 ≤ hashStep m h c ∧ hashStep m h c < m := by
  have h0 : 0 ≤ h * prime + c := by
    have : 0 ≤ h * prime := Int.mul_nonneg hh (by decide)
    omega
  exact ⟨Int.tmod_nonneg _ h0, Int.tmod_lt_of_pos _ hm⟩

theorem foldl_hashStep_range {m : Int} (hm : 0 < m) :
    ∀ (key : CString) (h : Int), nonNegative key → 0 ≤ h → h < m →
      0 ≤ key.foldl (hashStep m) h ∧ key.foldl (hashStep m) h < m
  | [], h, _, h0, h1 => ⟨h0, h1⟩
  | c :: key, h, hk, h0, _ => by
      have hc : 0 ≤ c := hk c (by simp)
      have hs := hashStep_range hm h0 hc
      exact foldl_hashStep_range hm key _ (fun d hd => hk d (by simp [hd])) hs.1 hs.2

theorem hashLoop_range {m : Int} (hm : 0 < m) {key : CString} (hk : nonNegative key) :
    0 ≤ hashLoop m key ∧ hashLoop m key < m :=
  foldl_hashStep_range hm key 0 hk (le_refl 0) hm

theorem hashFunction_range {m : Int} (hm : 0 < m) {key : CString} (hk : nonNegative key) :
    ∃ i : Nat, hashFunction m key = some (i : Int) ∧ (i : Int) < m := by
  have hr := hashLoop_range hm hk
  have hne : m ≠ 0 := by omega
  have h0 : 0 ≤ Int.tmod (hashLoop m key) m := Int.tmod_nonneg _ hr.1
  have h1 : Int.tmod (hashLoop m key) m < m := Int.tmod_lt_of_pos _ hm
  refine ⟨(Int.tmod (hashLoop m key) m).toNat, ?_, ?_⟩
  · simp [hashFunction, hne, Int.toNat_of_nonneg h0]
  · rw [Int.toNat_of_nonneg h0]; exact h1

theorem loadFactorExceeded_iff {s c : Int} (hc : 0 < c) :
    loadFactorExceeded s c = true ↔ 3 * c < 4 * s := by
  have hne : c ≠ 0 := by omega
  have hq : (0 : ℚ) < (c : ℚ) := by exact_mod_cast hc
  simp only [loadFactorExceeded, hne, if_false, decide_eq_true_eq, gt_iff_lt]
  rw [div_lt_div_iff₀ (by norm_num) hq]
  constructor
  · intro h
    have : ((3 * c : Int) : ℚ) < ((4 * s : Int) : ℚ) := by push_cast; linarith
    exact_mod_cast this
  · intro h
    have : ((3 * c : Int) : ℚ) < ((4 * s : Int) : ℚ) := by exact_mod_cast h
    push_cast at this; linarith

theorem not_loadFactorExceeded {s c : Int} (hc : 0 < c) (h : 4 * s ≤ 3 * c) :
    loadFactorExceeded s c = false := by
  cases hl : loadFactorExceeded s c with
  | false => rfl
  | true => have := (loadFactorExceeded_iff hc).1 hl; omega

/-! ## Linking at the front of a bucket -/

theorem pushFront_eq_some {table nt : List (List Place)} {i : Int} {p : Place}
    (h : pushFront table i p = some nt) :
    ∃ (j : Nat) (chain : List Place),
      i = (j : Int) ∧ table[j]? = some chain ∧ nt = table.set j (p :: chain) := by
  unfold pushFront at h
  split at h
  · rename_i hi
    split at h
    · rename_i chain hc
      refine ⟨i.toNat, chain, (Int.toNat_of_nonneg hi).symm, hc, ?_⟩
      simpa using h.symm
    · exact absurd h (by simp)
  · exact absurd h (by simp)

theorem pushFront_natCast {table : List (List Place)} {j : Nat} {chain : List Place}
    (p : Place) (h : table[j]? = some chain) :
    pushFront table (j : Int) p = some (table.set j (p :: chain)) := by
  simp [pushFront, h]

theorem flatten_set_cons_perm (p : Place) :
    ∀ (table : List (List Place)) (j : Nat) (chain : List Place),
      table[j]? = some chain →
      (table.set j (p :: chain)).flatten.Perm (p :: table.flatten)
  | [], j, chain, h => by simp at h
  | b :: table, 0, chain, h => by
      simp at h
      subst h
      simp
  | b :: table, j + 1, chain, h => by
      simp at h
      have ih := flatten_set_cons_perm p table j chain h
      simp only [List.set_cons_succ, List.flatten_cons]
      exact (List.Perm.append_left b ih).trans List.perm_middle

theorem placed_set_cons {capacity : Int} {table : List (List Place)} {j : Nat}
    {chain : List Place} {p : Place} (hp : Placed capacity table)
    (hc : table[j]? = some chain) (hh : hashFunction capacity p.name = some (j : Int)) :
    Placed capacity (table.set j (p :: chain)) := by
  intro k c hk q hq
  rw [List.getElem?_set] at hk
  by_cases hjk : j = k
  · subst hjk
    simp only [if_true] at hk
    split at hk
    · cases hk
      rcases List.mem_cons.1 hq with rfl | hq
      · exact hh
      · exact hp j chain hc q hq
    · exact absurd hk (by simp)
  · simp only [hjk, if_false] at hk
    exact hp k c hk q hq

theorem flatten_replicate_nil (n : Nat) :
    (List.replicate n ([] : List Place)).flatten = [] := by
  induction n with
  | zero => rfl
  | succ n ih => simp [List.replicate_succ]

theorem placed_replicate_nil (capacity : Int) (n : Nat) :
    Placed capacity (List.replicate n []) := by
  intro j chain hj p hp
  rw [List.getElem?_replicate] at hj
  split at hj
  · cases hj; simp at hp
  · exact absurd hj (by simp)

/-! ## The relinking loop of `resize` -/

theorem rehashChain_cons_eq_some {capacity : Int} {x : Place} {xs : List Place}
    {nt nt2 : List (List Place)} (h : rehashChain capacity (x :: xs) nt = some nt2) :
    ∃ (j : Nat) (chain : List Place),
      hashFunction capacity x.name = some (j : Int) ∧ nt[j]? = some chain ∧
      rehashChain capacity xs (nt.set j (x :: chain)) = some nt2 := by
  simp only [rehashChain, Option.bind_eq_bind, Option.bind_eq_some] at h
  obtain ⟨i, hi, nt1, h1, h2⟩ := h
  obtain ⟨j, chain, rfl, hc, rfl⟩ := pushFront_eq_some h1
  exact ⟨j, chain, hi, hc, h2⟩

theorem rehashChain_cons_of {capacity : Int} {x : Place} (xs : List Place)
    {nt : List (List Place)} {j : Nat} {chain : List Place}
    (hh : hashFunction capacity x.name = some (j : Int)) (hc : nt[j]? = some chain) :
    rehashChain capacity (x :: xs) nt = rehashChain capacity xs (nt.set j (x :: chain)) := by
  simp [rehashChain, hh, pushFront_natCast x hc]

theorem rehashChain_append (capacity : Int) :
    ∀ (xs ys : List Place) (nt : List (List Place)),
      rehashChain capacity (xs ++ ys) nt
        = (rehashChain capacity xs nt).bind (rehashChain capacity ys)
  | [], ys, nt => by simp [rehashChain]
  | x :: xs, ys, nt => by
      simp only [List.cons_append, rehashChain, Option.bind_eq_bind]
      cases hashFunction capacity x.name with
      | none => simp
      | some i =>
        cases hp : pushFront nt i x with
        | none => simp [hp]
        | some nt1 => simpa [hp] using rehashChain_append capacity xs ys nt1

theorem rehashChain_length {capacity : Int} :
    ∀ (xs : List Place) (nt nt2 : List (List Place)),
      rehashChain capacity xs nt = some nt2 → nt2.length = nt.length
  | [], nt, nt2, h => by simp [rehashChain] at h; simp [h]
  | x :: xs, nt, nt2, h => by
      obtain ⟨j, chain, _, _, h2⟩ := rehashChain_cons_eq_some h
      simpa using rehashChain_length xs _ nt2 h2

theorem rehashChain_perm {capacity : Int} :
    ∀ (xs : List Place) (nt nt2 : List (List Place)),
      rehashChain capacity xs nt = some nt2 → nt2.flatten.Perm (xs ++ nt.flatten)
  | [], nt, nt2, h => by simp [rehashChain] at h; simp [h]
  | x :: xs, nt, nt2, h => by
      obtain ⟨j, chain, _, hc, h2⟩ := rehashChain_cons_eq_some h
      have ih := rehashChain_perm xs _ nt2 h2
      have hs := flatten_set_cons_perm x nt j chain hc
      exact (ih.trans (List.Perm.append_left xs hs)).trans List.perm_middle

theorem rehashChain_placed {capacity : Int} :
    ∀ (xs : List Place) (nt nt2 : List (List Place)),
      rehashChain capacity xs nt = some nt2 → Placed capacity nt → Placed capacity nt2
  | [], nt, nt2, h, hp => by simp [rehashChain] at h; simpa [← h] using hp
  | x :: xs, nt, nt2, h, hp => by
      obtain ⟨j, chain, hh, hc, h2⟩ := rehashChain_cons_eq_some h
      exact rehashChain_placed xs _ nt2 h2 (placed_set_cons hp hc hh)

/-- The chain of every bucket after the loop: the relinked records that hash to
it, last relinked first, in front of what the bucket held. -/
theorem rehashChain_getElem? {capacity : Int} :
    ∀ (xs : List Place) (nt nt2 : List (List Place)),
      rehashChain capacity xs nt = some nt2 →
      ∀ (k : Nat) (chain : List Place), nt[k]? = some chain →
        nt2[k]? = some ((xs.filter
          (fun p => decide (hashFunction capacity p.name = some (k : Int)))).reverse ++ chain)
  | [], nt, nt2, h, k, chain, hk => by simp [rehashChain] at h; simpa [← h] using hk
  | x :: xs, nt, nt2, h, k, chain, hk => by
      obtain ⟨j, c, hh, hc, h2⟩ := rehashChain_cons_eq_some h
      by_cases hjk : j = k
      · subst hjk
        have hcc : c = chain := by rw [hc] at hk; exact Option.some.inj hk
        subst hcc
        have hlt : j < nt.length := (List.getElem?_eq_some_iff.1 hc).1
        have hset : (nt.set j (x :: c))[j]? = some (x :: c) := by
          simp [List.getElem?_set, hlt]
        have ih := rehashChain_getElem? xs _ nt2 h2 j _ hset
        simp [ih, List.filter_cons, hh]
      · have hset : (nt.set j (x :: c))[k]? = some chain := by
          simp [List.getElem?_set, hjk, hk]
        have ih := rehashChain_getElem? xs _ nt2 h2 k _ hset
        have hne : hashFunction capacity x.name ≠ some (k : Int) := by
          rw [hh]; intro he; exact hjk (by exact_mod_cast Option.some.inj he)
        simp [ih, List.filter_cons, hne]

theorem rehashChain_defined {capacity : Int} (hc : 0 < capacity) :
    ∀ (xs : List Place) (nt : List (List Place)),
      (nt.length : Int) = capacity → namesNonNegative xs →
      ∃ nt2, rehashChain capacity xs nt = some nt2
  | [], nt, _, _ => ⟨nt, rfl⟩
  | x :: xs, nt, hl, hx => by
      obtain ⟨j, hj, hlt⟩ := hashFunction_range hc (hx x (by simp))
      have hjl : j < nt.length := by omega
      have hget : nt[j]? = some nt[j] := List.getElem?_eq_getElem hjl
      rw [rehashChain_cons_of xs hj hget]
      exact rehashChain_defined hc xs _ (by simpa using hl) (fun p hp => hx p (by simp [hp]))

theorem rehashFrom_eq (table : List (List Place)) (capacity : Int) :
    ∀ (n i : Nat) (nt : List (List Place)), i + n ≤ table.length →
      rehashFrom table capacity i n nt
        = rehashChain capacity ((table.drop i).take n).flatten nt
  | 0, i, nt, _ => by simp [rehashFrom, rehashChain]
  | n + 1, i, nt, h => by
      have hlt : i < table.length := by omega
      have hget : table[i]? = some table[i] := List.getElem?_eq_getElem hlt
      have hdrop : table.drop i = table[i] :: table.drop (i + 1) :=
        List.drop_eq_getElem_cons hlt
      simp only [rehashFrom, hget, Option.bind_eq_bind, Option.some_bind, hdrop,
        List.take_succ_cons, List.flatten_cons, rehashChain_append]
      cases hr : rehashChain capacity table[i] nt with
      | none => simp
      | some nt1 => simpa using rehashFrom_eq table capacity n (i + 1) nt1 (by omega)

/-! ## The two lookups -/

theorem findByName_eq_some {t : HashTable} {name : CString} {res : List Place} :
    findByName t name = some res ↔
      ∃ (j : Nat) (chain : List Place), hashFunction t.capacity name = some (j : Int) ∧
        t.table[j]? = some chain ∧
        res = chain.filter (fun p => decide (p.name = name)) := by
  unfold findByName
  constructor
  · intro h
    simp only [Option.bind_eq_bind, Option.bind_eq_some] at h
    obtain ⟨i, hi, h⟩ := h
    split at h
    · rename_i h0
      simp only [Option.bind_eq_some, Option.some.injEq] at h
      obtain ⟨chain, hc, rfl⟩ := h
      exact ⟨i.toNat, chain, by rw [hi, Int.toNat_of_nonneg h0], hc, rfl⟩
    · exact absurd h (by simp)
  · rintro ⟨j, chain, hj, hc, rfl⟩
    simp [hj, hc]

theorem findByNameAndState_eq_some {t : HashTable} {name state : CString}
    {res : Option Place} :
    findByNameAndState t name state = some res ↔
      ∃ (j : Nat) (chain : List Place), hashFunction t.capacity name = some (j : Int) ∧
        t.table[j]? = some chain ∧
        res = chain.find? (fun p => decide (p.name = name ∧ p.state = state)) := by
  unfold findByNameAndState
  constructor
  · intro h
    simp only [Option.bind_eq_bind, Option.bind_eq_some] at h
    obtain ⟨i, hi, h⟩ := h
    split at h
    · rename_i h0
      simp only [Option.bind_eq_some, Option.some.injEq] at h
      obtain ⟨chain, hc, rfl⟩ := h
      exact ⟨i.toNat, chain, by rw [hi, Int.toNat_of_nonneg h0], hc, rfl⟩
    · exact absurd h (by simp)
  · rintro ⟨j, chain, hj, hc, rfl⟩
    simp [hj, hc]

theorem findByName_defined {t : HashTable} (hw : WellFormed t) {name : CString}
    (hq : nonNegative name) : ∃ res, findByName t name = some res := by
  obtain ⟨j, hj, hlt⟩ := hashFunction_range hw.capacity_pos hq
  have hl := hw.length_eq
  have hjl : j < t.table.length := by omega
  exact ⟨_, findByName_eq_some.2 ⟨j, _, hj, List.getElem?_eq_getElem hjl, rfl⟩⟩

theorem findByNameAndState_defined {t : HashTable} (hw : WellFormed t)
    {name : CString} (state : CString) (hq : nonNegative name) :
    ∃ res, findByNameAndState t name state = some res := by
  obtain ⟨j, hj, hlt⟩ := hashFunction_range hw.capacity_pos hq
  have hl := hw.length_eq
  have hjl : j < t.table.length := by omega
  exact ⟨_, findByNameAndState_eq_some.2 ⟨j, _, hj, List.getElem?_eq_getElem hjl, rfl⟩⟩

/-- In an array where only bucket `j` has elements that pass a test, filtering the
whole array gives the filtered bucket `j`. -/
theorem flatten_filter_single (f : Place → Bool) :
    ∀ (table : List (List Place)) (j : Nat) (chain : List Place),
      table[j]? = some chain →
      (∀ (k : Nat) (c : List Place), table[k]? = some c → k ≠ j → c.filter f = []) →
      table.flatten.filter f = chain.filter f
  | [], j, chain, h, _ => by simp at h
  | b :: table, 0, chain, h, hall => by
      simp at h
      subst h
      have hrest : table.flatten.filter f = [] := by
        rw [List.filter_eq_nil_iff]
        intro p hp
        obtain ⟨c, hc, hpc⟩ := List.mem_flatten.1 hp
        obtain ⟨k, hk, hkc⟩ := List.getElem_of_mem hc
        have hget : (b :: table)[k + 1]? = some c := by
          simp [List.getElem?_eq_getElem hk, hkc]
        have := hall (k + 1) c hget (by omega)
        exact (List.filter_eq_nil_iff.1 this) p hpc
      simp [List.filter_append, hrest]
  | b :: table, j + 1, chain, h, hall => by
      simp at h
      have hb : b.filter f = [] := hall 0 b (by simp) (by omega)
      have ih := flatten_filter_single f table j chain h (by
        intro k c hk hkj
        exact hall (k + 1) c (by simpa using hk) (by omega))
      simp [List.filter_append, hb, ih]

theorem placed_filter_name {capacity : Int} {table : List (List Place)}
    (hp : Placed capacity table) {name : CString} {j : Nat} {chain : List Place}
    (hj : hashFunction capacity name = some (j : Int)) (hc : table[j]? = some chain) :
    table.flatten.filter (fun p => decide (p.name = name))
      = chain.filter (fun p => decide (p.name = name)) := by
  refine flatten_filter_single _ table j chain hc ?_
  intro k c hk hkj
  rw [List.filter_eq_nil_iff]
  intro p hpc hname
  have hname : p.name = name := by simpa using hname
  have := hp k c hk p hpc
  rw [hname, hj] at this
  exact hkj (by exact_mod_cast (Option.some.inj this).symm)

/-- The lookup by name on a table whose records are placed by their hash: the
result lists, up to order, the stored records with that name. -/
theorem findByName_perm {t : HashTable} (hp : Placed t.capacity t.table)
    {ps : List Place} (hperm : t.table.flatten.Perm ps) {name : CString}
    {res : List Place} (h : findByName t name = some res) :
    res.Perm (ps.filter (fun p => decide (p.name = name))) := by
  obtain ⟨j, chain, hj, hc, rfl⟩ := findByName_eq_some.1 h
  rw [← placed_filter_name hp hj hc]
  exact hperm.filter _

theorem findByNameAndState_mem {t : HashTable} (hp : Placed t.capacity t.table)
    {ps : List Place} (hperm : t.table.flatten.Perm ps) {name state : CString}
    {res : Option Place} (h : findByNameAndState t name state = some res) :
    (res.isSome = true ↔ ∃ p ∈ ps, p.name = name ∧ p.state = state) ∧
      ∀ p, res = some p → p ∈ ps ∧ p.name = name ∧ p.state = state := by
  obtain ⟨j, chain, hj, hc, rfl⟩ := findByNameAndState_eq_some.1 h
  have hsub : ∀ p ∈ chain, p ∈ ps := fun p hpc =>
    hperm.mem_iff.1 (List.mem_flatten.2 ⟨chain, (List.getElem?_eq_some_iff.1 hc).2 ▸ List.getElem_mem _, hpc⟩)
  constructor
  · rw [List.find?_isSome]
    constructor
    · rintro ⟨p, hpc, hm⟩
      exact ⟨p, hsub p hpc, by simpa using hm⟩
    · rintro ⟨p, hps, hn, hs⟩
      refine ⟨p, ?_, by simp [hn, hs]⟩
      have hmem : p ∈ t.table.flatten.filter (fun p => decide (p.name = name)) :=
        List.mem_filter.2 ⟨hperm.mem_iff.2 hps, by simp [hn]⟩
      rw [placed_filter_name hp hj hc] at hmem
      exact (List.mem_filter.1 hmem).1
  · intro p hfind
    have hm := List.find?_some hfind
    have hmem := List.mem_of_find?_eq_some hfind
    exact ⟨hsub p hmem, by simpa using hm⟩

theorem filter_hash_name {capacity : Int} {name : CString} {j : Nat}
    (hj : hashFunction capacity name = some (j : Int)) (ps : List Place) :
    (ps.filter (fun p => decide (hashFunction capacity p.name = some (j : Int)))).filter
        (fun p => decide (p.name = name))
      = ps.filter (fun p => decide (p.name = name)) := by
  rw [List.filter_filter]
  apply List.filter_congr
  intro p _
  by_cases hn : p.name = name
  · simp [hn, hj]
  · simp [hn]

theorem find_hash_name {capacity : Int} {name state : CString} {j : Nat}
    (hj : hashFunction capacity name = some (j : Int)) (ps : List Place) :
    (ps.filter (fun p => decide (hashFunction capacity p.name = some (j : Int)))).find?
        (fun p => decide (p.name = name ∧ p.state = state))
      = ps.find? (fun p => decide (p.name = name ∧ p.state = state)) := by
  induction ps with
  | nil => rfl
  | cons p ps ih =>
    by_cases hh : hashFunction capacity p.name = some (j : Int)
    · rw [List.filter_cons_of_pos (by simpa using hh), List.find?_cons, List.find?_cons, ih]
    · have hn : p.name ≠ name := fun hn => hh (by rw [hn]; exact hj)
      rw [List.filter_cons_of_neg (by simpa using hh), List.find?_cons_of_neg _ (by simp [hn]),
        ih]

/-! ## Lemmas on the value of the hash -/

theorem polynomial_nonneg : ∀ (key : CString), nonNegative key → 0 ≤ polynomial key
  | [], _ => le_refl 0
  | c :: rest, hk => by
      have hc : 0 ≤ c := hk c (by simp)
      have hr := polynomial_nonneg rest (fun d hd => hk d (by simp [hd]))
      have hp : (0 : Int) ≤ prime ^ rest.length := pow_nonneg (by decide) _
      have := Int.mul_nonneg hc hp
      simp only [polynomial]
      omega

theorem hashStep_eq_emod {m h c : Int} (hm : 0 < m) (hh : 0 ≤ h) (hc : 0 ≤ c) :
    hashStep m h c = (h * prime + c) % m := by
  have h0 : 0 ≤ h * prime + c := by
    have : 0 ≤ h * prime := Int.mul_nonneg hh (by decide)
    omega
  exact Int.tmod_eq_emod h0 (le_of_lt hm)

/-- Reducing at every round or once at the end gives the same residue. -/
theorem foldl_hashStep_emod {m : Int} (hm : 0 < m) :
    ∀ (key : CString) (h : Int), nonNegative key → 0 ≤ h →
      key.foldl (hashStep m) h % m = (h * prime ^ key.length + polynomial key) % m
  | [], h, _, _ => by simp [polynomial]
  | c :: rest, h, hk, hh => by
      have hc : 0 ≤ c := hk c (by simp)
      have hs := hashStep_range hm hh hc
      have ih := foldl_hashStep_emod hm rest (hashStep m h c)
        (fun d hd => hk d (by simp [hd])) hs.1
      simp only [List.foldl_cons, List.length_cons, polynomial]
      rw [ih, hashStep_eq_emod hm hh hc, Int.add_emod, Int.mul_emod, Int.emod_emod,
        ← Int.mul_emod, ← Int.add_emod]
      congr 1
      ring

theorem hashLoop_eq_polynomial {m : Int} (hm : 0 < m) {key : CString}
    (hk : nonNegative key) : hashLoop m key = polynomial key % m := by
  have hr := hashLoop_range hm hk
  have h := foldl_hashStep_emod hm key 0 hk (le_refl 0)
  rw [Int.zero_mul, Int.zero_add] at h
  rw [← h]
  exact (Int.emod_eq_of_lt hr.1 hr.2).symm

theorem hashFunction_eq_hashLoop {m : Int} (hm : 0 < m) {key : CString}
    (hk : nonNegative key) : hashFunction m key = some (hashLoop m key) := by
  have hr := hashLoop_range hm hk
  have hne : m ≠ 0 := by omega
  simp [hashFunction, hne, Int.tmod_eq_of_lt hr.1 hr.2]

theorem nonNegative_take {key : CString} (hk : nonNegative key) (n : Nat) :
    nonNegative (key.take n) :=
  fun c hc => hk c (List.mem_of_mem_take hc)

theorem tmod_gt_neg (x : Int) {m : Int} (hm : 0 < m) : -m < Int.tmod x m := by
  by_cases hx : 0 ≤ x
  · have := Int.tmod_nonneg m hx
    omega
  · have hlt := Int.tmod_lt_of_pos (-x) hm
    have hdef := Int.tmod_def x m
    have hdef2 := Int.tmod_def (-x) m
    rw [Int.neg_tdiv] at hdef2
    have hmul : m * -(x.tdiv m) = -(m * x.tdiv m) := by ring
    rw [hmul] at hdef2
    omega

theorem tmod_of_abs_lt {y m : Int} (h1 : -m < y) (h2 : y < m) : Int.tmod y m = y := by
  by_cases hy : 0 ≤ y
  · exact Int.tmod_eq_of_lt hy h2
  · have hpos : 0 ≤ -y := by omega
    have h3 : Int.tmod (-y) m = -y := Int.tmod_eq_of_lt hpos (by omega)
    have hdef := Int.tmod_def y m
    have hdef2 := Int.tmod_def (-y) m
    rw [Int.neg_tdiv] at hdef2
    have hmul : m * -(y.tdiv m) = -(m * y.tdiv m) := by ring
    rw [hmul, h3] at hdef2
    omega

theorem foldl_hashStep_abs_lt {m : Int} (hm : 0 < m) :
    ∀ (key : CString) (h : Int), -m < h → h < m →
      -m < key.foldl (hashStep m) h ∧ key.foldl (hashStep m) h < m
  | [], _, h1, h2 => ⟨h1, h2⟩
  | c :: rest, h, _, _ =>
      foldl_hashStep_abs_lt hm rest (hashStep m h c) (tmod_gt_neg _ hm)
        (Int.tmod_lt_of_pos _ hm)

/-! ## `resize` and `insert` with `int` taken as unbounded -/

theorem resizeIdeal_counters {t t1 : HashTable} (h : resizeIdeal t = some t1) :
    t1.capacity = t.capacity * 2 ∧ t1.size = t.size := by
  simp only [resizeIdeal, Option.bind_eq_bind, Option.bind_eq_some] at h
  obtain ⟨_, _, _, _, h⟩ := h
  cases h
  exact ⟨rfl, rfl⟩

theorem resizeIdeal_eq {t : HashTable} (hw : WellFormed t) :
    resizeIdeal t = (rehashChain (t.capacity * 2) t.table.flatten
        (List.replicate (t.capacity * 2).toNat [])).map
      (fun nt => { table := nt, capacity := t.capacity * 2, size := t.size }) := by
  have hpos := hw.capacity_pos
  have hlen := hw.length_eq
  have hn : ¬ t.capacity * 2 < 0 := by omega
  have hl : t.capacity.toNat = t.table.length := by omega
  simp only [resizeIdeal, newArray, hn, if_false, Option.bind_eq_bind, Option.some_bind]
  rw [rehashFrom_eq _ _ _ _ _ (by omega), hl]
  simp only [List.drop_zero, List.take_length]
  cases rehashChain (t.capacity * 2) t.table.flatten
      (List.replicate (t.capacity * 2).toNat []) <;> rfl

theorem resizeIdeal_spec {t t1 : HashTable} (hw : WellFormed t) (h : resizeIdeal t = some t1) :
    WellFormed t1 ∧ Placed t1.capacity t1.table ∧
      t1.table.flatten.Perm t.table.flatten := by
  have hpos := hw.capacity_pos
  rw [resizeIdeal_eq hw, Option.map_eq_some'] at h
  obtain ⟨nt, hnt, rfl⟩ := h
  refine ⟨⟨?_, ?_⟩, ?_, ?_⟩
  · show 0 < t.capacity * 2
    omega
  · show (nt.length : Int) = t.capacity * 2
    rw [rehashChain_length _ _ _ hnt, List.length_replicate]
    omega
  · exact rehashChain_placed _ _ _ hnt (placed_replicate_nil _ _)
  · simpa [flatten_replicate_nil] using rehashChain_perm _ _ _ hnt

theorem resizeIdeal_defined {t : HashTable} (hw : WellFormed t)
    (hn : namesNonNegative t.table.flatten) : ∃ t1, resizeIdeal t = some t1 := by
  have hpos := hw.capacity_pos
  obtain ⟨nt, hnt⟩ := @rehashChain_defined (t.capacity * 2) (by omega)
    t.table.flatten (List.replicate (t.capacity * 2).toNat [])
    (by rw [List.length_replicate]; omega) hn
  exact ⟨_, by rw [resizeIdeal_eq hw, hnt]; rfl⟩

theorem insertIdeal_eq_some {t t2 : HashTable} {p : Place} :
    insertIdeal t p = some t2 ↔
      ∃ t1, grownIdeal t = some t1 ∧ ∃ nt, rehashChain t1.capacity [p] t1.table = some nt ∧
        t2 = { table := nt, capacity := t1.capacity, size := t1.size + 1 } := by
  simp only [insertIdeal, grownIdeal, rehashChain, Option.bind_eq_bind, Option.bind_eq_some,
    Option.some.injEq]
  constructor
  · rintro ⟨t1, h1, i, hi, nt, hnt, rfl⟩
    exact ⟨t1, h1, nt, ⟨i, hi, nt, hnt, rfl⟩, rfl⟩
  · rintro ⟨t1, h1, nt, ⟨i, hi, nt1, hnt, rfl⟩, rfl⟩
    exact ⟨t1, h1, i, hi, nt1, hnt, rfl⟩

theorem grownIdeal_counters {t t1 : HashTable} (h : grownIdeal t = some t1) :
    t1.size = t.size ∧
      t1.capacity = if loadFactorExceeded t.size t.capacity then t.capacity * 2
        else t.capacity := by
  unfold grownIdeal at h
  by_cases hl : loadFactorExceeded t.size t.capacity = true
  · simp only [hl, if_true] at h ⊢
    exact ⟨(resizeIdeal_counters h).2, (resizeIdeal_counters h).1⟩
  · simp only [hl, if_false] at h ⊢
    cases h; exact ⟨rfl, rfl⟩

theorem grownIdeal_spec {t t1 : HashTable} (hw : WellFormed t)
    (hp : Placed t.capacity t.table) (h : grownIdeal t = some t1) :
    WellFormed t1 ∧ Placed t1.capacity t1.table ∧
      t1.table.flatten.Perm t.table.flatten := by
  unfold grownIdeal at h
  split at h
  · exact resizeIdeal_spec hw h
  · cases h; exact ⟨hw, hp, List.Perm.refl _⟩

theorem grownIdeal_defined {t : HashTable} (hw : WellFormed t)
    (hn : namesNonNegative t.table.flatten) : ∃ t1, grownIdeal t = some t1 := by
  unfold grownIdeal
  split
  · exact resizeIdeal_defined hw hn
  · exact ⟨t, rfl⟩

/-- What one `insertIdeal` does to the two counters, whatever the record. -/
theorem insertIdeal_counters {t t2 : HashTable} {p : Place} (h : insertIdeal t p = some t2) :
    t2.size = t.size + 1 ∧
      t2.capacity = if loadFactorExceeded t.size t.capacity then t.capacity * 2
        else t.capacity := by
  obtain ⟨t1, h1, nt, _, rfl⟩ := insertIdeal_eq_some.1 h
  obtain ⟨hs, hc⟩ := grownIdeal_counters h1
  exact ⟨by simp [hs], hc⟩

theorem insertIdeal_spec {t t2 : HashTable} {p : Place} (hw : WellFormed t)
    (hp : Placed t.capacity t.table) (h : insertIdeal t p = some t2) :
    WellFormed t2 ∧ Placed t2.capacity t2.table ∧
      t2.table.flatten.Perm (p :: t.table.flatten) := by
  obtain ⟨t1, h1, nt, hnt, rfl⟩ := insertIdeal_eq_some.1 h
  obtain ⟨hw1, hp1, hperm1⟩ := grownIdeal_spec hw hp h1
  refine ⟨⟨hw1.capacity_pos, ?_⟩, rehashChain_placed _ _ _ hnt hp1, ?_⟩
  · show (nt.length : Int) = t1.capacity
    rw [rehashChain_length _ _ _ hnt]; exact hw1.length_eq
  · exact (rehashChain_perm _ _ _ hnt).trans (by simpa using hperm1)

theorem insertIdeal_defined {t : HashTable} {p : Place} (hw : WellFormed t)
    (hn : namesNonNegative t.table.flatten) (hp : nonNegative p.name) :
    ∃ t2, insertIdeal t p = some t2 := by
  obtain ⟨t1, h1⟩ := grownIdeal_defined hw hn
  have hw1 : WellFormed t1 := by
    unfold grownIdeal at h1
    split at h1
    · rw [resizeIdeal_eq hw, Option.map_eq_some'] at h1
      obtain ⟨nt, hnt, rfl⟩ := h1
      have hpos := hw.capacity_pos
      refine ⟨by show 0 < t.capacity * 2; omega, ?_⟩
      show (nt.length : Int) = t.capacity * 2
      rw [rehashChain_length _ _ _ hnt, List.length_replicate]
      omega
    · cases h1; exact hw
  obtain ⟨nt, hnt⟩ := rehashChain_defined hw1.capacity_pos [p] t1.table hw1.length_eq
    (by intro q hq; simp at hq; subst hq; exact hp)
  exact ⟨_, insertIdeal_eq_some.2 ⟨t1, h1, nt, hnt, rfl⟩⟩

theorem insertAllIdeal_nil (t : HashTable) : insertAllIdeal t [] = some t := rfl

theorem insertAllIdeal_cons (t : HashTable) (p : Place) (ps : List Place) :
    insertAllIdeal t (p :: ps) = (insertIdeal t p).bind (fun t1 => insertAllIdeal t1 ps) := by
  simp [insertAllIdeal, List.foldlM_cons]

theorem insertAllIdeal_append (t : HashTable) (ps qs : List Place) :
    insertAllIdeal t (ps ++ qs) = (insertAllIdeal t ps).bind (fun t1 => insertAllIdeal t1 qs) := by
  simp [insertAllIdeal, List.foldlM_append]

theorem init_pos {c : Int} (hc : 0 < c) :
    HashTable.init c = some { table := List.replicate c.toNat [], capacity := c, size := 0 } := by
  have : ¬ c < 0 := by omega
  simp [HashTable.init, newArray, this]

theorem buildIdeal_pos {c : Int} (hc : 0 < c) (ps : List Place) :
    buildIdeal c ps
      = insertAllIdeal { table := List.replicate c.toNat [], capacity := c, size := 0 } ps := by
  simp [buildIdeal, init_pos hc]

theorem wellFormed_empty {c : Int} (hc : 0 < c) :
    WellFormed { table := List.replicate c.toNat [], capacity := c, size := 0 } :=
  ⟨hc, by simp only [List.length_replicate]; omega⟩

/-- What a table contains after a run of inserts that has a result. -/
theorem insertAllIdeal_spec :
    ∀ (ps : List Place) (t t2 : HashTable), WellFormed t → Placed t.capacity t.table →
      insertAllIdeal t ps = some t2 →
      WellFormed t2 ∧ Placed t2.capacity t2.table ∧
        t2.table.flatten.Perm (ps ++ t.table.flatten) ∧
        t2.size = t.size + ps.length
  | [], t, t2, hw, hp, h => by
      cases h; exact ⟨hw, hp, by simp, by simp⟩
  | p :: ps, t, t2, hw, hp, h => by
      rw [insertAllIdeal_cons, Option.bind_eq_some] at h
      obtain ⟨t1, h1, h2⟩ := h
      obtain ⟨hw1, hp1, hperm1⟩ := insertIdeal_spec hw hp h1
      obtain ⟨hw2, hp2, hperm2, hs2⟩ := insertAllIdeal_spec ps t1 t2 hw1 hp1 h2
      refine ⟨hw2, hp2, ?_, ?_⟩
      · exact hperm2.trans ((List.Perm.append_left ps hperm1).trans List.perm_middle)
      · rw [hs2, (insertIdeal_counters h1).1, List.length_cons]; push_cast; omega

theorem buildIdeal_spec {c : Int} (hc : 0 < c) {ps : List Place} {t : HashTable}
    (h : buildIdeal c ps = some t) :
    WellFormed t ∧ Placed t.capacity t.table ∧ t.table.flatten.Perm ps ∧
      t.size = ps.length := by
  rw [buildIdeal_pos hc] at h
  obtain ⟨hw, hp, hperm, hs⟩ :=
    insertAllIdeal_spec ps _ t (wellFormed_empty hc) (placed_replicate_nil _ _) h
  exact ⟨hw, hp, by simpa [flatten_replicate_nil] using hperm, by simpa using hs⟩

/-- A run of inserts none of which finds the load factor exceeded links the
records one after the other into the unchanged bucket array. -/
theorem insertAllIdeal_noResize :
    ∀ (ps : List Place) (t : HashTable), 0 < t.capacity →
      4 * (t.size + (ps.length : Int) - 1) ≤ 3 * t.capacity →
      insertAllIdeal t ps = (rehashChain t.capacity ps t.table).map
        (fun nt => { table := nt, capacity := t.capacity, size := t.size + ps.length })
  | [], t, _, _ => by simp [insertAllIdeal_nil, rehashChain]
  | p :: ps, t, hc, hs => by
      have hlen : ((p :: ps).length : Int) = (ps.length : Int) + 1 := by simp
      rw [hlen] at hs
      have hnot : loadFactorExceeded t.size t.capacity = false :=
        not_loadFactorExceeded hc (by omega)
      rw [insertAllIdeal_cons]
      have hsplit : rehashChain t.capacity (p :: ps) t.table
          = (rehashChain t.capacity [p] t.table).bind (rehashChain t.capacity ps) :=
        rehashChain_append t.capacity [p] ps t.table
      rw [hsplit]
      cases hr : rehashChain t.capacity [p] t.table with
      | none =>
        have : insertIdeal t p = none := by
          cases hi : insertIdeal t p with
          | none => rfl
          | some t2 =>
            obtain ⟨t1, h1, nt, hnt, _⟩ := insertIdeal_eq_some.1 hi
            simp only [grownIdeal, hnot] at h1
            cases h1
            rw [hr] at hnt
            exact absurd hnt (by simp)
        simp [this]
      | some nt =>
        have hi : insertIdeal t p
            = some { table := nt, capacity := t.capacity, size := t.size + 1 } :=
          insertIdeal_eq_some.2 ⟨t, by simp [grownIdeal, hnot], nt, hr, rfl⟩
        rw [hi]
        simp only [Option.some_bind]
        have ih := insertAllIdeal_noResize ps
          { table := nt, capacity := t.capacity, size := t.size + 1 } hc
          (by show 4 * (t.size + 1 + (ps.length : Int) - 1) ≤ 3 * t.capacity; omega)
        rw [ih]
        show Option.map _ (rehashChain t.capacity ps nt) = _
        cases rehashChain t.capacity ps nt with
        | none => rfl
        | some nt2 =>
          simp only [Option.map_some', Option.some.injEq, HashTable.mk.injEq, true_and,
            hlen]
          omega

theorem buildIdeal_append_of {c : Int} (hc : 0 < c) {pre : List Place} {t0 : HashTable}
    (h0 : buildIdeal c pre = some t0) (post : List Place) :
    buildIdeal c (pre ++ post) = insertAllIdeal t0 post := by
  rw [buildIdeal_pos hc] at h0
  rw [buildIdeal_pos hc, insertAllIdeal_append, h0]
  rfl

/-- The bucket array after a run of inserts without resizeIdeal, started on a table
built before. -/
theorem buildIdeal_append_noResize {c : Int} (hc : 0 < c) {pre post : List Place}
    {t0 t : HashTable} (h0 : buildIdeal c pre = some t0)
    (hload : 4 * (t0.size + (post.length : Int) - 1) ≤ 3 * t0.capacity)
    (h : buildIdeal c (pre ++ post) = some t) :
    t.capacity = t0.capacity ∧ rehashChain t0.capacity post t0.table = some t.table := by
  have hw := (buildIdeal_spec hc h0).1
  rw [buildIdeal_append_of hc h0, insertAllIdeal_noResize post t0 hw.capacity_pos hload,
    Option.map_eq_some'] at h
  obtain ⟨nt, hnt, rfl⟩ := h
  exact ⟨rfl, hnt⟩

theorem defaultSchedule_insert {t t2 : HashTable} {p : Place} (h0 : 0 ≤ t.size)
    (h1 : t.size < 1213) (hcap : t.capacity = defaultSchedule t.size)
    (h : insertIdeal t p = some t2) : t2.capacity = defaultSchedule t2.size := by
  obtain ⟨hs, hc2⟩ := insertIdeal_counters h
  have hpos : 0 < t.capacity := by
    rw [hcap]; unfold defaultSchedule; split_ifs <;> omega
  by_cases h4 : 3 * t.capacity < 4 * t.size
  · rw [(loadFactorExceeded_iff hpos).2 h4] at hc2
    simp only [if_true] at hc2
    rw [hc2, hs]
    rw [hcap] at h4 ⊢
    unfold defaultSchedule at h4 ⊢
    split_ifs at h4 ⊢ <;> omega
  · rw [not_loadFactorExceeded hpos (by omega)] at hc2
    simp only [Bool.false_eq_true, if_false] at hc2
    rw [hc2, hs]
    rw [hcap] at h4 ⊢
    unfold defaultSchedule at h4 ⊢
    split_ifs at h4 ⊢ <;> omega

theorem defaultSchedule_insertAll :
    ∀ (ps : List Place) (t t2 : HashTable), 0 ≤ t.size →
      t.size + (ps.length : Int) ≤ 1213 → t.capacity = defaultSchedule t.size →
      insertAllIdeal t ps = some t2 → t2.capacity = defaultSchedule t2.size
  | [], t, t2, _, _, hcap, h => by cases h; exact hcap
  | p :: ps, t, t2, h0, h1, hcap, h => by
      rw [insertAllIdeal_cons, Option.bind_eq_some] at h
      obtain ⟨t1, hi, h2⟩ := h
      have hlen : ((p :: ps).length : Int) = (ps.length : Int) + 1 := by simp
      have hs := (insertIdeal_counters hi).1
      exact defaultSchedule_insertAll ps t1 t2 (by omega) (by omega)
        (defaultSchedule_insert h0 (by omega) hcap hi) h2

theorem defaultSchedule_build {ps : List Place} {t : HashTable}
    (hlen : ps.length ≤ 1213) (h : buildIdeal 101 ps = some t) :
    t.size = ps.length ∧ t.capacity = defaultSchedule ps.length := by
  have hs : t.size = ps.length := (buildIdeal_spec (by decide) h).2.2.2
  rw [buildIdeal_pos (by decide)] at h
  have := defaultSchedule_insertAll ps _ t (le_refl 0)
    (by show (0 : Int) + (ps.length : Int) ≤ 1213; omega) (by decide) h
  exact ⟨hs, by rw [this, hs]⟩

theorem insertIdeal_keeps_or_doubles {t t2 : HashTable} {p : Place} (h : insertIdeal t p = some t2) :
    t2.capacity = t.capacity ∨ t2.capacity = t.capacity * 2 := by
  have hc := (insertIdeal_counters h).2
  cases hl : loadFactorExceeded t.size t.capacity with
  | true => right; simpa [hl] using hc
  | false => left; simpa [hl] using hc

theorem callIdeal_keeps_or_doubles {t t2 : HashTable} {cl : Call} (h : callIdeal t cl = some t2) :
    t2.capacity = t.capacity ∨ t2.capacity = t.capacity * 2 := by
  cases cl with
  | insert place => exact insertIdeal_keeps_or_doubles h
  | findByName name =>
    simp only [callIdeal, Option.map_eq_some'] at h
    obtain ⟨_, _, rfl⟩ := h
    exact Or.inl rfl
  | findByNameAndState name state =>
    simp only [callIdeal, Option.map_eq_some'] at h
    obtain ⟨_, _, rfl⟩ := h
    exact Or.inl rfl

theorem runCallsIdeal_cons (t : HashTable) (cl : Call) (calls : List Call) :
    runCallsIdeal t (cl :: calls) = (callIdeal t cl).bind (fun t1 => runCallsIdeal t1 calls) := by
  simp [runCallsIdeal, List.foldlM_cons]

theorem runCallsIdeal_capacity :
    ∀ (calls : List Call) (t t2 : HashTable), runCallsIdeal t calls = some t2 →
      ∃ k : Nat, t2.capacity = t.capacity * 2 ^ k
  | [], t, t2, h => by
      cases h
      exact ⟨0, by simp⟩
  | cl :: calls, t, t2, h => by
      rw [runCallsIdeal_cons, Option.bind_eq_some] at h
      obtain ⟨t1, h1, h2⟩ := h
      obtain ⟨k, hk⟩ := runCallsIdeal_capacity calls t1 t2 h2
      rcases callIdeal_keeps_or_doubles h1 with hc | hc
      · exact ⟨k, by rw [hk, hc]⟩
      · exact ⟨k + 1, by rw [hk, hc, pow_succ]; ring⟩

theorem insertAllIdeal_capacity :
    ∀ (ps : List Place) (t t2 : HashTable), insertAllIdeal t ps = some t2 →
      ∃ k : Nat, t2.capacity = t.capacity * 2 ^ k
  | [], t, t2, h => by
      cases h
      exact ⟨0, by simp⟩
  | p :: ps, t, t2, h => by
      rw [insertAllIdeal_cons, Option.bind_eq_some] at h
      obtain ⟨t1, h1, h2⟩ := h
      obtain ⟨k, hk⟩ := insertAllIdeal_capacity ps t1 t2 h2
      rcases insertIdeal_keeps_or_doubles h1 with hc | hc
      · exact ⟨k, by rw [hk, hc]⟩
      · exact ⟨k + 1, by rw [hk, hc, pow_succ]; ring⟩

theorem callIdeal_defined {t : HashTable} {cl : Call} (hw : WellFormed t)
    (hp : Placed t.capacity t.table) (hn : namesNonNegative t.table.flatten)
    (hcl : cl.nonNegative) :
    ∃ t2, callIdeal t cl = some t2 ∧ WellFormed t2 ∧ Placed t2.capacity t2.table ∧
      namesNonNegative t2.table.flatten := by
  cases cl with
  | insert place =>
    obtain ⟨t2, h2⟩ := insertIdeal_defined hw hn hcl
    obtain ⟨hw2, hp2, hperm⟩ := insertIdeal_spec hw hp h2
    refine ⟨t2, h2, hw2, hp2, ?_⟩
    intro q hq
    rcases List.mem_cons.1 (hperm.mem_iff.1 hq) with rfl | hq
    · exact hcl
    · exact hn q hq
  | findByName name =>
    obtain ⟨res, hres⟩ := findByName_defined hw hcl
    exact ⟨t, by simp [callIdeal, hres], hw, hp, hn⟩
  | findByNameAndState name state =>
    obtain ⟨res, hres⟩ := findByNameAndState_defined hw state hcl
    exact ⟨t, by simp [callIdeal, hres], hw, hp, hn⟩

theorem runCallsIdeal_defined :
    ∀ (calls : List Call) (t : HashTable), WellFormed t → Placed t.capacity t.table →
      namesNonNegative t.table.flatten → (∀ cl ∈ calls, cl.nonNegative) →
      ∃ t2, runCallsIdeal t calls = some t2
  | [], t, _, _, _, _ => ⟨t, rfl⟩
  | cl :: calls, t, hw, hp, hn, hcl => by
      obtain ⟨t1, h1, hw1, hp1, hn1⟩ := callIdeal_defined hw hp hn (hcl cl (by simp))
      obtain ⟨t2, h2⟩ := runCallsIdeal_defined calls t1 hw1 hp1 hn1
        (fun x hx => hcl x (by simp [hx]))
      exact ⟨t2, by rw [runCallsIdeal_cons, h1]; exact h2⟩

theorem toInt_eq_some {x y : Int} :
    toInt x = some y ↔ (INT_MIN ≤ x ∧ x ≤ INT_MAX) ∧ y = x := by
  unfold toInt
  split
  · rename_i h
    simp [h, eq_comm]
  · rename_i h
    simp [h]

theorem toInt_of_range {x : Int} (h1 : INT_MIN ≤ x) (h2 : x ≤ INT_MAX) : toInt x = some x :=
  toInt_eq_some.2 ⟨⟨h1, h2⟩, rfl⟩

/-- A `resize` is a `resizeIdeal` whose doubled capacity is an `int`. -/
theorem resize_eq_some {t t1 : HashTable} :
    resize t = some t1 ↔
      (INT_MIN ≤ t.capacity * 2 ∧ t.capacity * 2 ≤ INT_MAX) ∧ resizeIdeal t = some t1 := by
  simp only [resize, resizeIdeal, Option.bind_eq_bind, Option.bind_eq_some, toInt_eq_some]
  constructor
  · rintro ⟨c, ⟨hr, rfl⟩, h⟩
    exact ⟨hr, h⟩
  · rintro ⟨hr, h⟩
    exact ⟨_, ⟨hr, rfl⟩, h⟩

theorem resize_overflow {t : HashTable} (h : INT_MAX < t.capacity * 2) : resize t = none := by
  cases hr : resize t with
  | none => rfl
  | some t1 => exact absurd (resize_eq_some.1 hr).1.2 (not_le.2 h)

/-- An `insert` is an `insertIdeal` whose doubled capacity, when it doubles, and
whose new size are `int`s. -/
theorem insert_eq_some {t t2 : HashTable} {p : Place} :
    insert t p = some t2 ↔
      insertIdeal t p = some t2 ∧ (INT_MIN ≤ t2.size ∧ t2.size ≤ INT_MAX) ∧
        (loadFactorExceeded t.size t.capacity = true →
          INT_MIN ≤ t.capacity * 2 ∧ t.capacity * 2 ≤ INT_MAX) := by
  simp only [insert, insertIdeal, Option.bind_eq_bind, Option.bind_eq_some, toInt_eq_some,
    Option.some.injEq]
  constructor
  · rintro ⟨t1, h1, i, hi, tb, htb, sz, ⟨hr, rfl⟩, rfl⟩
    cases hl : loadFactorExceeded t.size t.capacity with
    | true =>
      rw [hl] at h1
      simp only [if_true] at h1
      obtain ⟨hc, hid⟩ := resize_eq_some.1 h1
      exact ⟨⟨t1, by simp [hid], i, hi, tb, htb, rfl⟩, hr, fun _ => hc⟩
    | false =>
      rw [hl] at h1
      exact ⟨⟨t1, by simpa using h1, i, hi, tb, htb, rfl⟩, hr, fun h => absurd h (by simp)⟩
  · rintro ⟨⟨t1, h1, i, hi, tb, htb, rfl⟩, hr, hc⟩
    cases hl : loadFactorExceeded t.size t.capacity with
    | true =>
      rw [hl] at h1
      simp only [if_true] at h1
      exact ⟨t1, by simp [resize_eq_some.2 ⟨hc hl, h1⟩], i, hi, tb, htb, _, ⟨hr, rfl⟩, rfl⟩
    | false =>
      rw [hl] at h1
      exact ⟨t1, by simpa using h1, i, hi, tb, htb, _, ⟨hr, rfl⟩, rfl⟩

theorem insert_refines {t t2 : HashTable} {p : Place} (h : insert t p = some t2) :
    insertIdeal t p = some t2 :=
  (insert_eq_some.1 h).1

theorem insert_counters {t t2 : HashTable} {p : Place} (h : insert t p = some t2) :
    t2.size = t.size + 1 ∧
      t2.capacity = if loadFactorExceeded t.size t.capacity then t.capacity * 2
        else t.capacity :=
  insertIdeal_counters (insert_refines h)

theorem insert_capacity_le {t t2 : HashTable} {p : Place} (h : insert t p = some t2)
    (hc : t.capacity ≤ INT_MAX) : t2.capacity ≤ INT_MAX := by
  obtain ⟨hid, _, hov⟩ := insert_eq_some.1 h
  have hcap := (insertIdeal_counters hid).2
  cases hl : loadFactorExceeded t.size t.capacity with
  | true =>
    rw [hl] at hcap
    simp only [if_true] at hcap
    rw [hcap]
    exact (hov hl).2
  | false =>
    rw [hl] at hcap
    simp only [Bool.false_eq_true, if_false] at hcap
    rw [hcap]
    exact hc

/-- When no `int` overflows, `insert` has a result. -/
theorem insert_defined {t : HashTable} {p : Place} (hw : WellFormed t)
    (hn : namesNonNegative t.table.flatten) (hp : nonNegative p.name)
    (h0 : 0 ≤ t.size) (h1 : t.size < INT_MAX)
    (hc : 4 * t.size > 3 * t.capacity → 2 * t.capacity ≤ INT_MAX) :
    ∃ t2, insert t p = some t2 := by
  obtain ⟨t2, h2⟩ := insertIdeal_defined hw hn hp
  have hs := (insertIdeal_counters h2).1
  have hpos := hw.capacity_pos
  refine ⟨t2, insert_eq_some.2 ⟨h2, ?_, ?_⟩⟩
  · rw [hs]
    unfold INT_MIN
    constructor <;> omega
  · intro hl
    have := hc ((loadFactorExceeded_iff hpos).1 hl)
    unfold INT_MIN
    constructor <;> omega

/-! ## Runs of `insert` on 32-bit `int`s -/

theorem insertAll_cons (t : HashTable) (p : Place) (ps : List Place) :
    insertAll t (p :: ps) = (insert t p).bind (fun t1 => insertAll t1 ps) := by
  simp [insertAll, List.foldlM_cons]

theorem insertAll_append (t : HashTable) (ps qs : List Place) :
    insertAll t (ps ++ qs) = (insertAll t ps).bind (fun t1 => insertAll t1 qs) := by
  simp [insertAll, List.foldlM_append]

theorem insertAll_refines :
    ∀ (ps : List Place) (t t2 : HashTable), insertAll t ps = some t2 →
      insertAllIdeal t ps = some t2
  | [], t, t2, h => h
  | p :: ps, t, t2, h => by
      rw [insertAll_cons, Option.bind_eq_some] at h
      obtain ⟨t1, h1, h2⟩ := h
      rw [insertAllIdeal_cons, insert_refines h1]
      exact insertAll_refines ps t1 t2 h2

theorem insertAll_capacity_le :
    ∀ (ps : List Place) (t t2 : HashTable), insertAll t ps = some t2 →
      t.capacity ≤ INT_MAX → t2.capacity ≤ INT_MAX
  | [], t, t2, h, hc => by cases h; exact hc
  | p :: ps, t, t2, h, hc => by
      rw [insertAll_cons, Option.bind_eq_some] at h
      obtain ⟨t1, h1, h2⟩ := h
      exact insertAll_capacity_le ps t1 t2 h2 (insert_capacity_le h1 hc)

theorem build_eq_some {c : Int} {ps : List Place} {t : HashTable} :
    build c ps = some t ↔
      (INT_MIN ≤ c ∧ c ≤ INT_MAX) ∧
        ∃ t0, HashTable.init c = some t0 ∧ insertAll t0 ps = some t := by
  simp only [build, Option.bind_eq_some, toInt_eq_some]
  constructor
  · rintro ⟨c1, ⟨hr, rfl⟩, h⟩
    exact ⟨hr, h⟩
  · rintro ⟨hr, h⟩
    exact ⟨_, ⟨hr, rfl⟩, h⟩

theorem build_refines {c : Int} {ps : List Place} {t : HashTable}
    (h : build c ps = some t) : buildIdeal c ps = some t := by
  obtain ⟨_, t0, h0, h1⟩ := build_eq_some.1 h
  simp [buildIdeal, h0, insertAll_refines ps t0 t h1]

/-- What a built table contains, and that its capacity is an `int`. -/
theorem build_spec {c : Int} (hc : 0 < c) {ps : List Place} {t : HashTable}
    (h : build c ps = some t) :
    WellFormed t ∧ Placed t.capacity t.table ∧ t.table.flatten.Perm ps ∧
      t.size = ps.length ∧ t.capacity ≤ INT_MAX ∧ c ≤ INT_MAX := by
  obtain ⟨hw, hp, hperm, hs⟩ := buildIdeal_spec hc (build_refines h)
  obtain ⟨hr, t0, h0, h1⟩ := build_eq_some.1 h
  rw [init_pos hc] at h0
  cases h0
  exact ⟨hw, hp, hperm, hs, insertAll_capacity_le ps _ t h1 hr.2, hr.2⟩

theorem build_append_of {c : Int} {pre : List Place} {t0 : HashTable}
    (h0 : build c pre = some t0) (post : List Place) :
    build c (pre ++ post) = insertAll t0 post := by
  obtain ⟨hr, ti, hi, h1⟩ := build_eq_some.1 h0
  simp [build, toInt_of_range hr.1 hr.2, hi, insertAll_append, h1]

/-- A run of inserts has a result when the names are non-negative and the
records fit a doubling of the capacity that is still an `int`. -/
theorem insertAll_defined :
    ∀ (ps : List Place) (t : HashTable), WellFormed t → Placed t.capacity t.table →
      namesNonNegative t.table.flatten → namesNonNegative ps → 0 ≤ t.size →
      Fits t.capacity t.size ps.length → ∃ t2, insertAll t ps = some t2
  | [], t, _, _, _, _, _, _ => ⟨t, rfl⟩
  | p :: ps, t, hw, hp, hn, hps, h0, ⟨k, hk, hfit⟩ => by
      have hpos := hw.capacity_pos
      have hlen : ((p :: ps).length : Int) = (ps.length : Int) + 1 := by simp
      rw [hlen] at hfit
      have hlen0 : (0 : Int) ≤ (ps.length : Int) := Int.ofNat_nonneg _
      have hsize : t.size < INT_MAX := by
        unfold INT_MAX at hk ⊢
        generalize t.capacity * 2 ^ k = x at hk hfit
        omega
      have hdouble : 4 * t.size > 3 * t.capacity →
          ∃ j : Nat, k = j + 1 := by
        intro h4
        cases k with
        | zero =>
          simp only [pow_zero, mul_one] at hfit
          omega
        | succ j => exact ⟨j, rfl⟩
      have hcap : 4 * t.size > 3 * t.capacity → 2 * t.capacity ≤ INT_MAX := by
        intro h4
        obtain ⟨j, rfl⟩ := hdouble h4
        have h1 : (1 : Int) ≤ 2 ^ j := one_le_pow₀ (by decide)
        have h2 : 2 * t.capacity ≤ 2 * t.capacity * 2 ^ j :=
          le_mul_of_one_le_right (by omega) h1
        have h3 : t.capacity * 2 ^ (j + 1) = 2 * t.capacity * 2 ^ j := by ring
        rw [h3] at hk
        exact le_trans h2 hk
      obtain ⟨t1, h1⟩ := insert_defined hw hn (hps p (by simp)) h0 hsize hcap
      obtain ⟨hw1, hp1, hperm1⟩ := insertIdeal_spec hw hp (insert_refines h1)
      obtain ⟨hs1, hc1⟩ := insert_counters h1
      have hn1 : namesNonNegative t1.table.flatten := by
        intro q hq
        rcases List.mem_cons.1 (hperm1.mem_iff.1 hq) with rfl | hq
        · exact hps _ (by simp)
        · exact hn q hq
      have hfit1 : Fits t1.capacity t1.size ps.length := by
        cases hl : loadFactorExceeded t.size t.capacity with
        | true =>
          obtain ⟨j, rfl⟩ := hdouble ((loadFactorExceeded_iff hpos).1 hl)
          rw [hl] at hc1
          simp only [if_true] at hc1
          have h3 : t.capacity * 2 ^ (j + 1) = t.capacity * 2 * 2 ^ j := by ring
          rw [h3] at hk hfit
          refine ⟨j, by rw [hc1]; exact hk, ?_⟩
          rw [hc1, hs1]
          generalize t.capacity * 2 * 2 ^ j = x at hk hfit
          omega
        | false =>
          rw [hl] at hc1
          simp only [Bool.false_eq_true, if_false] at hc1
          refine ⟨k, by rw [hc1]; exact hk, ?_⟩
          rw [hc1, hs1]
          generalize t.capacity * 2 ^ k = x at hk hfit
          omega
      obtain ⟨t2, h2⟩ := insertAll_defined ps t1 hw1 hp1 hn1
        (fun q hq => hps q (by simp [hq])) (by omega) hfit1
      exact ⟨t2, by rw [insertAll_cons, h1]; exact h2⟩

theorem fits_capacity_le {c s : Int} {n : Nat} (hc : 0 < c) (h : Fits c s n) :
    c ≤ INT_MAX := by
  obtain ⟨k, hk, _⟩ := h
  have h1 : (1 : Int) ≤ 2 ^ k := one_le_pow₀ (by decide)
  exact le_trans (le_mul_of_one_le_right (le_of_lt hc) h1) hk

theorem build_defined {c : Int} (hc : 0 < c) {ps : List Place}
    (hps : namesNonNegative ps) (hfit : Fits c 0 ps.length) :
    ∃ t, build c ps = some t := by
  have hle := fits_capacity_le hc hfit
  obtain ⟨t, ht⟩ := insertAll_defined ps
    { table := List.replicate c.toNat [], capacity := c, size := 0 }
    (wellFormed_empty hc) (placed_replicate_nil _ _)
    (by intro p hp; simp [flatten_replicate_nil] at hp) hps (le_refl 0) hfit
  refine ⟨t, build_eq_some.2 ⟨⟨?_, hle⟩, _, init_pos hc, ht⟩⟩
  unfold INT_MIN
  omega

/-! ## Lookup by name -/

/-- C1, counterexample: the claim lets the query be any string.  On the default
table holding Springfield IL, the query made of the byte `0xff` hashes to `-1`,
so `findByName` reads `table[-1]` and has no defined result, where the claim
promises the (empty) list of matching records. -/
theorem findByName_query_out_of_bounds :
    hashFunction 101 byteFF = some (-1) ∧
      (build 101 [springfieldIL]).isSome = true ∧
      (build 101 [springfieldIL]).bind (fun t => findByName t byteFF) = none := by
  decide!

/-- C1, amended: for every initial capacity > 0 and every sequence of inserted
records whose names have non-negative character codes, in every table left by
the inserts every result of `findByName name` lists exactly the inserted records
named `name`: it is a permutation of the insert sequence filtered by the name,
so each such record occurs as often as it was inserted and no other record
occurs, whatever resizes took place; and the lookup has a result for every query
whose character codes are non-negative.  The inserts leave a table whenever the
records fit a doubling of the initial capacity that is still an `int`. -/
theorem findByName_exact (c : Int) (hc : 0 < c) (ps : List Place)
    (hps : namesNonNegative ps) (name : CString) :
    (∀ t, build c ps = some t →
      (∀ res, findByName t name = some res →
        res.Perm (ps.filter (fun p => decide (p.name = name))) ∧
        (∀ p, p.name = name → res.count p = ps.count p) ∧
        (∀ p ∈ res, p.name = name)) ∧
      (nonNegative name → ∃ res, findByName t name = some res)) ∧
    (Fits c 0 ps.length → ∃ t, build c ps = some t) := by
  refine ⟨?_, fun hfit => build_defined hc hps hfit⟩
  intro t ht
  obtain ⟨hw, hp, hperm, _⟩ := build_spec hc ht
  refine ⟨?_, fun hq => findByName_defined hw hq⟩
  intro res hres
  have hr := findByName_perm hp hperm hres
  refine ⟨hr, ?_, ?_⟩
  · intro p hpn
    rw [hr.count_eq, List.count_filter]
    simp [hpn]
  · intro p hpr
    simpa using (List.mem_filter.1 (hr.mem_iff.1 hpr)).2

/-- Witness for C1: the default table with the two Springfield records. -/
theorem findByName_exact_witness :
    ∃ t res, build 101 [springfieldIL, springfieldMA] = some t ∧
      findByName t springfield = some res ∧
      res.Perm ([springfieldIL, springfieldMA].filter
        (fun p => decide (p.name = springfield))) := by
  have h := findByName_exact 101 (by decide) [springfieldIL, springfieldMA] (by decide)
    springfield
  obtain ⟨t, ht⟩ := h.2 ⟨0, by decide, by decide⟩
  obtain ⟨res, hres⟩ := (h.1 t ht).2 (by decide)
  exact ⟨t, res, ht, hres, ((h.1 t ht).1 res hres).1⟩

/-! ## Lookup by name and state -/

/-- C3, counterexample: the query name made of the byte `0xff` was never
inserted, yet `findByNameAndState` does not return the null result: its bucket
index is `-1` and the read of `table[-1]` has no defined result. -/
theorem findByNameAndState_query_out_of_bounds :
    (build 101 [springfieldIL, springfieldMA]).isSome = true ∧
      (build 101 [springfieldIL, springfieldMA]).bind
        (fun t => findByNameAndState t byteFF stateIL) = none := by
  decide!

/-- C3, amended: for every initial capacity > 0, every sequence of inserted
records with non-negative character codes in their names and every query
(name, state), in every table left by the inserts every result of
`findByNameAndState` is a record exactly when some inserted record has that name
and that state, a returned record is an inserted record with that name and that
state, and otherwise the result is the null result; and the lookup has a result
for every query name whose character codes are non-negative, in particular for
such a name that was never inserted.  The inserts leave a table whenever the
records fit a doubling of the initial capacity that is still an `int`. -/
theorem findByNameAndState_exact (c : Int) (hc : 0 < c) (ps : List Place)
    (hps : namesNonNegative ps) (name state : CString) :
    (∀ t, build c ps = some t →
      (∀ res, findByNameAndState t name state = some res →
        (res.isSome = true ↔ ∃ p ∈ ps, p.name = name ∧ p.state = state) ∧
        (∀ p, res = some p → p ∈ ps ∧ p.name = name ∧ p.state = state) ∧
        ((∀ p ∈ ps, p.name ≠ name) → res = none)) ∧
      (nonNegative name → ∃ res, findByNameAndState t name state = some res)) ∧
    (Fits c 0 ps.length → ∃ t, build c ps = some t) := by
  refine ⟨?_, fun hfit => build_defined hc hps hfit⟩
  intro t ht
  obtain ⟨hw, hp, hperm, _⟩ := build_spec hc ht
  refine ⟨?_, fun hq => findByNameAndState_defined hw state hq⟩
  intro res hres
  obtain ⟨h1, h2⟩ := findByNameAndState_mem hp hperm hres
  refine ⟨h1, h2, ?_⟩
  intro hnone
  cases res with
  | none => rfl
  | some p => exact absurd (h2 p rfl).2.1 (hnone p (h2 p rfl).1)

/-- Witness for C3: the two Springfield records and the query Springfield, TX. -/
theorem findByNameAndState_exact_witness :
    ∃ t, build 101 [springfieldIL, springfieldMA] = some t ∧
      findByNameAndState t springfield stateTX = some none := by
  have h := findByNameAndState_exact 101 (by decide) [springfieldIL, springfieldMA]
    (by decide) springfield stateTX
  obtain ⟨t, ht⟩ := h.2 ⟨0, by decide, by decide⟩
  obtain ⟨res, hres⟩ := (h.1 t ht).2 (by decide)
  have hiff := ((h.1 t ht).1 res hres).1
  cases res with
  | none => exact ⟨t, ht, hres⟩
  | some p =>
    obtain ⟨q, hq, _, hs⟩ := hiff.1 rfl
    simp only [List.mem_cons, List.mem_singleton, List.not_mem_nil, or_false] at hq
    rcases hq with rfl | rfl <;> exact absurd hs (by decide)

/-! ## Order of the results -/

/-- C2, counterexample: the claim's own example.  After 77 inserts of records
named Springfield into the default table of capacity 101 the 77th insert has
resized the table, and `findByName` returns record 76 followed by the records
0, 1, ..., 75 in that order: record 0, inserted first, comes before record 1,
inserted second, so the result is not in most-recent-first order. -/
theorem findByName_order_after_resize :
    (build 101 (numbered 77)).bind (fun t => findByName t springfield)
        = some (mkPlace 76 stateIL springfield :: numbered 76) ∧
      ¬ List.Sublist (mkPlace 76 stateIL springfield :: numbered 76)
          (numbered 77).reverse := by
  decide!

theorem build_noResize_table {c : Int} (hc : 0 < c) {pre post : List Place}
    {t0 t : HashTable} (h0 : build c pre = some t0)
    (hload : 4 * (t0.size + (post.length : Int) - 1) ≤ 3 * t0.capacity)
    (h : build c (pre ++ post) = some t) :
    t.capacity = t0.capacity ∧ rehashChain t0.capacity post t0.table = some t.table :=
  buildIdeal_append_noResize hc (build_refines h0) hload (build_refines h)

theorem build_noResize_defined {c : Int} (hc : 0 < c) {pre post : List Place}
    {t0 : HashTable} (h0 : build c pre = some t0)
    (hload : 4 * (t0.size + (post.length : Int) - 1) ≤ 3 * t0.capacity)
    (hps : namesNonNegative (pre ++ post)) :
    ∃ t, build c (pre ++ post) = some t := by
  obtain ⟨hw, hp, hperm, hs, hle, _⟩ := build_spec hc h0
  rw [build_append_of h0]
  refine insertAll_defined post t0 hw hp ?_ (fun p hp => hps p (by simp [hp])) ?_ ?_
  · intro p hp
    exact hps p (by simp [hperm.mem_iff.1 hp])
  · rw [hs]; exact Int.ofNat_nonneg _
  · exact ⟨0, by simpa using hle, by simpa using hload⟩

/-- C2, amended: take a table built from `pre` with initial capacity > 0 and
insert the records `post` without any of these inserts resizing the table (each
finds `size / capacity <= 0.75`).  Then every result of `findByName name` starts
with the records of `post` named `name`, most recently inserted first, followed
by the result the lookup had before `post`.  With `pre` empty this is the whole
result in most-recent-insert-first order for every run without resize.  The
order among records that were in the table during a resize is not claimed.  The
run and the lookup have a result when all character codes are non-negative. -/
theorem findByName_recent_first (c : Int) (hc : 0 < c) (pre post : List Place)
    (name : CString) (t0 : HashTable) (h0 : build c pre = some t0)
    (hload : 4 * (t0.size + (post.length : Int) - 1) ≤ 3 * t0.capacity) :
    (∀ t res, build c (pre ++ post) = some t → findByName t name = some res →
      ∃ res0, findByName t0 name = some res0 ∧
        res = post.reverse.filter (fun p => decide (p.name = name)) ++ res0) ∧
    (namesNonNegative (pre ++ post) → nonNegative name →
      ∃ t res, build c (pre ++ post) = some t ∧ findByName t name = some res) := by
  constructor
  · intro t res ht hres
    obtain ⟨hcap, hnt⟩ := build_noResize_table hc h0 hload ht
    obtain ⟨j, chain, hj, hchain, rfl⟩ := findByName_eq_some.1 hres
    rw [hcap] at hj
    have hlt : j < t0.table.length := by
      rw [← rehashChain_length _ _ _ hnt]
      exact (List.getElem?_eq_some_iff.1 hchain).1
    have hget0 : t0.table[j]? = some t0.table[j] := List.getElem?_eq_getElem hlt
    have hget := rehashChain_getElem? post _ _ hnt j _ hget0
    rw [hchain] at hget
    cases hget
    refine ⟨_, findByName_eq_some.2 ⟨j, _, hj, hget0, rfl⟩, ?_⟩
    rw [List.filter_append, List.filter_reverse, filter_hash_name hj, List.filter_reverse]
  · intro hps hq
    obtain ⟨t, ht⟩ := build_noResize_defined hc h0 hload hps
    obtain ⟨res, hres⟩ := findByName_defined (build_spec hc ht).1 hq
    exact ⟨t, res, ht, hres⟩

/-- Witness for C2: 76 records inserted into the empty default table, a run
without resize. -/
theorem findByName_recent_first_witness :
    (∀ t res, build 101 ([] ++ numbered 76) = some t →
      findByName t springfield = some res →
      ∃ res0, findByName { table := List.replicate 101 [], capacity := 101, size := 0 }
          springfield = some res0 ∧
        res = (numbered 76).reverse.filter (fun p => decide (p.name = springfield)) ++ res0) ∧
    (namesNonNegative ([] ++ numbered 76) → nonNegative springfield →
      ∃ t res, build 101 ([] ++ numbered 76) = some t ∧
        findByName t springfield = some res) :=
  findByName_recent_first 101 (by decide) [] (numbered 76) springfield
    { table := List.replicate 101 [], capacity := 101, size := 0 } (by decide) (by decide)

/-- C4, counterexample: 76 records that are all Springfield, Illinois (numbered
0 to 75) and then Springfield, Massachusetts are inserted into the default table.
The last insert resizes the table, and `findByNameAndState` for Springfield,
Illinois returns record 0, the first inserted, not record 75, the most recently
inserted of them. -/
theorem findByNameAndState_oldest_after_resize :
    (build 101 (numbered 76 ++ [springfieldMA])).bind
        (fun t => findByNameAndState t springfield stateIL)
      = some (some (mkPlace 0 stateIL springfield)) ∧
    (numbered 76 ++ [springfieldMA]).reverse.find?
        (fun p => decide (p.name = springfield ∧ p.state = stateIL))
      = some (mkPlace 75 stateIL springfield) := by
  decide!

/-- C4, amended: take a table built from `pre` with initial capacity > 0 and
insert the records `post` without any of these inserts resizing the table.  Then
every result of `findByNameAndState name state` is the most recently inserted
record of `post` with that name and that state when there is one, and otherwise
the result the lookup had before `post`.  With `pre` empty: in every run without
resize the lookup returns the most recently inserted of the records that share
the name and the state.  Which of them is returned once they went through a
resize is not claimed.  The run and the lookup have a result when all character
codes are non-negative. -/
theorem findByNameAndState_most_recent (c : Int) (hc : 0 < c) (pre post : List Place)
    (name state : CString) (t0 : HashTable) (h0 : build c pre = some t0)
    (hload : 4 * (t0.size + (post.length : Int) - 1) ≤ 3 * t0.capacity) :
    (∀ t res, build c (pre ++ post) = some t →
      findByNameAndState t name state = some res →
      ∃ res0, findByNameAndState t0 name state = some res0 ∧
        res = (post.reverse.find?
          (fun p => decide (p.name = name ∧ p.state = state))).or res0) ∧
    (namesNonNegative (pre ++ post) → nonNegative name →
      ∃ t res, build c (pre ++ post) = some t ∧
        findByNameAndState t name state = some res) := by
  constructor
  · intro t res ht hres
    obtain ⟨hcap, hnt⟩ := build_noResize_table hc h0 hload ht
    obtain ⟨j, chain, hj, hchain, rfl⟩ := findByNameAndState_eq_some.1 hres
    rw [hcap] at hj
    have hlt : j < t0.table.length := by
      rw [← rehashChain_length _ _ _ hnt]
      exact (List.getElem?_eq_some_iff.1 hchain).1
    have hget0 : t0.table[j]? = some t0.table[j] := List.getElem?_eq_getElem hlt
    have hget := rehashChain_getElem? post _ _ hnt j _ hget0
    rw [hchain] at hget
    cases hget
    refine ⟨_, findByNameAndState_eq_some.2 ⟨j, _, hj, hget0, rfl⟩, ?_⟩
    rw [List.find?_append, ← List.filter_reverse, find_hash_name hj]
  · intro hps hq
    obtain ⟨t, ht⟩ := build_noResize_defined hc h0 hload hps
    obtain ⟨res, hres⟩ := findByNameAndState_defined (build_spec hc ht).1 state hq
    exact ⟨t, res, ht, hres⟩

/-- Witness for C4: 76 records inserted into the empty default table, a run
without resize. -/
theorem findByNameAndState_most_recent_witness :
    (∀ t res, build 101 ([] ++ numbered 76) = some t →
      findByNameAndState t springfield stateIL = some res →
      ∃ res0, findByNameAndState
          { table := List.replicate 101 [], capacity := 101, size := 0 }
          springfield stateIL = some res0 ∧
        res = ((numbered 76).reverse.find?
          (fun p => decide (p.name = springfield ∧ p.state = stateIL))).or res0) ∧
    (namesNonNegative ([] ++ numbered 76) → nonNegative springfield →
      ∃ t res, build 101 ([] ++ numbered 76) = some t ∧
        findByNameAndState t springfield stateIL = some res) :=
  findByNameAndState_most_recent 101 (by decide) [] (numbered 76) springfield stateIL
    { table := List.replicate 101 [], capacity := 101, size := 0 } (by decide) (by decide)

/-! ## One insert -/

/-- C8, counterexample: into the default table of capacity 101 holding 75
records one more record is inserted.  Before the insert `75 / 101 <= 0.75`, so
there is no resize; after it `size / 101 = 76 / 101 > 0.75`, and the capacity is
still 101, not 202. -/
theorem capacity_kept_at_threshold :
    (build 101 (numbered 75)).bind
        (fun t => (insert t springfieldMA).map (fun t2 => (t.capacity, t2.size, t2.capacity)))
      = some (101, 76, 101) ∧
    3 * (101 : Int) < 4 * 76 := by
  decide!

/-- C8, amended: for every table with capacity `c > 0` and every insert that
leaves a table in which `size / c` (new size over the capacity before the
insert) is above 0.75: if the size before the insert was already above
`0.75 * c`, the capacity right after the insert is exactly `2 * c`; if it was
not, the capacity right after the insert is still `c`, and a next insert that
leaves a table makes it exactly `2 * c`.  The insert leaves a table when the
table has `c` buckets, all names have non-negative character codes and neither
`size + 1` nor, if the load factor is exceeded, `2 * c` overflows `int`. -/
theorem capacity_after_loaded_insert (t : HashTable) (hc : 0 < t.capacity) (p : Place) :
    (∀ t2, insert t p = some t2 → 4 * t2.size > 3 * t.capacity →
      (4 * t.size > 3 * t.capacity → t2.capacity = 2 * t.capacity) ∧
      (¬ 4 * t.size > 3 * t.capacity →
        t2.capacity = t.capacity ∧
        ∀ q t3, insert t2 q = some t3 → t3.capacity = 2 * t.capacity)) ∧
    ((t.table.length : Int) = t.capacity → namesNonNegative t.table.flatten →
      nonNegative p.name → 0 ≤ t.size → t.size < INT_MAX →
      (4 * t.size > 3 * t.capacity → 2 * t.capacity ≤ INT_MAX) →
      ∃ t2, insert t p = some t2) := by
  refine ⟨?_, fun hlen hn hp h0 hlt hov => insert_defined ⟨hc, hlen⟩ hn hp h0 hlt hov⟩
  intro t2 h hload
  obtain ⟨hs, hcap⟩ := insert_counters h
  constructor
  · intro h4
    rw [(loadFactorExceeded_iff hc).2 h4] at hcap
    simp only [if_true] at hcap
    omega
  · intro h4
    rw [not_loadFactorExceeded hc (by omega)] at hcap
    simp only [Bool.false_eq_true, if_false] at hcap
    refine ⟨hcap, ?_⟩
    intro q t3 h3
    obtain ⟨_, hcap3⟩ := insert_counters h3
    have hc2 : 0 < t2.capacity := by omega
    rw [(loadFactorExceeded_iff hc2).2 (by omega)] at hcap3
    simp only [if_true] at hcap3
    omega

/-- Witness for C8: the first insert into a table of capacity 1; it fills the
table without a resize, and the next insert doubles the capacity. -/
theorem capacity_after_loaded_insert_witness :
    ∃ t2, insert { table := [[]], capacity := 1, size := 0 } springfieldIL = some t2 ∧
      t2.capacity = 1 ∧ ∀ q t3, insert t2 q = some t3 → t3.capacity = 2 * 1 := by
  have h := capacity_after_loaded_insert { table := [[]], capacity := 1, size := 0 }
    (by decide) springfieldIL
  obtain ⟨t2, h2⟩ := h.2 (by decide) (by decide) (by decide) (by decide) (by decide)
    (by decide)
  have hs : t2.size = 1 := by
    have := (insert_counters h2).1
    simpa using this
  exact ⟨t2, h2, ((h.1 t2 h2 (by rw [hs]; decide)).2 (by decide))⟩

/-! ## A thousand inserts into the default table -/

theorem fits_default {n : Nat} (hn : n ≤ 1000) : Fits 101 0 n :=
  ⟨4, by decide, by
    have : (n : Int) ≤ 1000 := by exact_mod_cast hn
    norm_num
    omega⟩

/-- C9: for every sequence of exactly 1000 records whose names have non-negative
character codes, inserted into a table constructed with capacity 101: the run
has a result, the final capacity is 1616 and the final size is 1000, every
record is in the result of `findByName` for its own name, and the capacity
after the first `n` inserts is 101 up to `n = 76`, 202 up to `n = 152`, 404 up
to `n = 304`, 808 up to `n = 607` and 1616 from then on: exactly the four
doublings 101 -> 202 -> 404 -> 808 -> 1616. -/
theorem thousand_inserts (ps : List Place) (hlen : ps.length = 1000)
    (hps : namesNonNegative ps) :
    ∃ t, build 101 ps = some t ∧ t.capacity = 1616 ∧ t.size = 1000 ∧
      (∀ r ∈ ps, ∃ res, findByName t r.name = some res ∧ r ∈ res) ∧
      (∀ n : Nat, n ≤ 1000 → ∃ tn, build 101 (ps.take n) = some tn ∧ tn.size = n ∧
        tn.capacity = if n ≤ 76 then 101 else if n ≤ 152 then 202
          else if n ≤ 304 then 404 else if n ≤ 607 then 808 else 1616) := by
  obtain ⟨t, ht⟩ := build_defined (c := 101) (by decide) hps (fits_default (by omega))
  obtain ⟨hw, hp, hperm, _⟩ := build_spec (by decide) ht
  obtain ⟨hsize, hcap⟩ := defaultSchedule_build (by omega) (build_refines ht)
  refine ⟨t, ht, ?_, ?_, ?_, ?_⟩
  · rw [hcap, hlen]; decide
  · rw [hsize, hlen]; rfl
  · intro r hr
    obtain ⟨res, hres⟩ := findByName_defined hw (hps r hr)
    refine ⟨res, hres, ?_⟩
    exact (findByName_perm hp hperm hres).mem_iff.2 (List.mem_filter.2 ⟨hr, by simp⟩)
  · intro n hn
    have htake : namesNonNegative (ps.take n) := fun p hp => hps p (List.mem_of_mem_take hp)
    have hl : (ps.take n).length = n := by rw [List.length_take]; omega
    obtain ⟨tn, htn⟩ := build_defined (c := 101) (by decide) htake
      (fits_default (by omega))
    obtain ⟨hs, hc⟩ := defaultSchedule_build (by omega) (build_refines htn)
    rw [hl] at hs hc
    refine ⟨tn, htn, hs, ?_⟩
    rw [hc]
    unfold defaultSchedule
    split_ifs <;> first | rfl | omega

/-- Witness for C9: the same record inserted a thousand times. -/
theorem thousand_inserts_witness :
    ∃ t, build 101 (List.replicate 1000 springfieldIL) = some t ∧
      t.capacity = 1616 ∧ t.size = 1000 := by
  obtain ⟨t, h1, h2, h3, _⟩ := thousand_inserts (List.replicate 1000 springfieldIL)
    (List.length_replicate _ _) (by intro p hp; rw [List.eq_of_mem_replicate hp]; decide)
  exact ⟨t, h1, h2, h3⟩

/-! ## The capacity along a sequence of calls -/

/-- C10: for every initial capacity `c0 > 0`, with `int` taken as unbounded (the
operations `insertIdeal`, `buildIdeal`, `callIdeal` and `runCallsIdeal`): after
every sequence of inserts, and after every sequence of calls of `insert`,
`findByName` and `findByNameAndState`, the capacity is `c0 * 2 ^ k` for some
`k >= 0`; no call makes the capacity smaller and the capacity stays positive;
the two lookups return the table they were called on, so they do not change the
capacity.  A sequence of calls has a result whenever the names it hashes have
non-negative character codes.  The same holds of every table that the inserts
on 32-bit `int`s leave: its capacity is `c0 * 2 ^ k`, and an `insert` that leaves
a table does not make the capacity smaller. -/
theorem capacity_doubles_only (c0 : Int) (hc : 0 < c0) (calls : List Call) :
    (∀ ps t, buildIdeal c0 ps = some t → ∃ k : Nat, t.capacity = c0 * 2 ^ k) ∧
    (∀ t0 t, HashTable.init c0 = some t0 → runCallsIdeal t0 calls = some t →
      ∃ k : Nat, t.capacity = c0 * 2 ^ k) ∧
    (∀ t cl t2, 0 < t.capacity → callIdeal t cl = some t2 →
      t.capacity ≤ t2.capacity ∧ 0 < t2.capacity) ∧
    (∀ t name t2, callIdeal t (Call.findByName name) = some t2 → t2 = t) ∧
    (∀ t name state t2,
      callIdeal t (Call.findByNameAndState name state) = some t2 → t2 = t) ∧
    ((∀ cl ∈ calls, cl.nonNegative) →
      ∃ t0 t, HashTable.init c0 = some t0 ∧ runCallsIdeal t0 calls = some t) ∧
    (∀ ps t, build c0 ps = some t → ∃ k : Nat, t.capacity = c0 * 2 ^ k) ∧
    (∀ t p t2, 0 < t.capacity → insert t p = some t2 →
      t.capacity ≤ t2.capacity ∧ 0 < t2.capacity) := by
  have hbuild : ∀ ps t, buildIdeal c0 ps = some t → ∃ k : Nat, t.capacity = c0 * 2 ^ k := by
    intro ps t h
    rw [buildIdeal_pos hc] at h
    exact insertAllIdeal_capacity ps _ t h
  refine ⟨hbuild, ?_, ?_, ?_, ?_, ?_, fun ps t h => hbuild ps t (build_refines h), ?_⟩
  · intro t0 t h0 h
    rw [init_pos hc] at h0
    cases h0
    exact runCallsIdeal_capacity calls _ t h
  · intro t cl t2 hpos h
    rcases callIdeal_keeps_or_doubles h with h2 | h2 <;> omega
  · intro t name t2 h
    simp only [callIdeal, Option.map_eq_some'] at h
    obtain ⟨_, _, rfl⟩ := h
    rfl
  · intro t name state t2 h
    simp only [callIdeal, Option.map_eq_some'] at h
    obtain ⟨_, _, rfl⟩ := h
    rfl
  · intro hcl
    obtain ⟨t, ht⟩ := runCallsIdeal_defined calls _ (wellFormed_empty hc)
      (placed_replicate_nil _ _) (by intro p hp; simp [flatten_replicate_nil] at hp) hcl
    exact ⟨_, t, init_pos hc, ht⟩
  · intro t p t2 hpos h
    rcases insertIdeal_keeps_or_doubles (insert_refines h) with h2 | h2 <;> omega

/-- Witness for C10: two inserts and two lookups on the default table. -/
theorem capacity_doubles_only_witness :
    ∃ t0 t, HashTable.init 101 = some t0 ∧
      runCallsIdeal t0 [Call.insert springfieldIL, Call.findByName springfield,
        Call.insert springfieldMA, Call.findByNameAndState springfield stateTX] = some t ∧
      ∃ k : Nat, t.capacity = 101 * 2 ^ k := by
  have h := capacity_doubles_only 101 (by decide) [Call.insert springfieldIL,
    Call.findByName springfield, Call.insert springfieldMA,
    Call.findByNameAndState springfield stateTX]
  obtain ⟨t0, t, h0, ht⟩ := h.2.2.2.2.2.1 (by
    intro cl hcl
    simp only [List.mem_cons, List.mem_singleton, List.not_mem_nil, or_false] at hcl
    rcases hcl with rfl | rfl | rfl | rfl <;> exact (by decide : nonNegative springfield))
  exact ⟨t0, t, h0, ht, h.2.1 t0 t h0 ht⟩

/-! ## The constructor -/

/-- C11, counterexample: the constructor accepts the capacity 0.  The table is
constructed with `capacity = 0` and an empty bucket array, and the first lookup
or insert computes a remainder by zero. -/
theorem init_zero_capacity :
    HashTable.init 0 = some { table := [], capacity := 0, size := 0 } ∧
      hashFunction 0 springfield = none ∧
      insert { table := [], capacity := 0, size := 0 } springfieldIL = none ∧
      findByName { table := [], capacity := 0, size := 0 } springfield = none ∧
      findByNameAndState { table := [], capacity := 0, size := 0 } springfield stateIL
        = none := by
  decide!

/-- C11, amended: for the default 101 and for every caller-supplied initial
capacity that is positive, the constructor returns a table with exactly that
capacity (so a capacity > 0), that many empty buckets and size 0, and the
remainders that `hashFunction` computes on it are remainders by a positive
number, so every key has a hash.  The constructor does not check its argument:
with 0 it builds a table of capacity 0, and with a negative value the array
allocation fails and no table is built. -/
theorem constructor_positive_capacity (c : Int) (hc : 0 < c) :
    (∃ t, HashTable.init c = some t ∧ t.capacity = c ∧ 0 < t.capacity ∧ t.size = 0 ∧
      t.table = List.replicate c.toNat [] ∧ (t.table.length : Int) = c ∧
      ∀ key, ∃ h, hashFunction t.capacity key = some h) ∧
    (∀ n : Int, n < 0 → HashTable.init n = none) := by
  constructor
  · refine ⟨_, init_pos hc, rfl, hc, rfl, rfl, (wellFormed_empty hc).length_eq, ?_⟩
    intro key
    have hne : c ≠ 0 := by omega
    exact ⟨Int.tmod (hashLoop c key) c, by simp [hashFunction, hne]⟩
  · intro n hn
    simp [HashTable.init, newArray, hn]

/-- Witness for C11: the default capacity 101. -/
theorem constructor_positive_capacity_witness :
    (∃ t, HashTable.init 101 = some t ∧ t.capacity = 101 ∧ 0 < t.capacity ∧ t.size = 0 ∧
      t.table = List.replicate (101 : Int).toNat [] ∧ (t.table.length : Int) = 101 ∧
      ∀ key, ∃ h, hashFunction t.capacity key = some h) ∧
    (∀ n : Int, n < 0 → HashTable.init n = none) :=
  constructor_positive_capacity 101 (by decide)

/-! ## The value of the hash -/

/-- C12: for every capacity `m > 0` and every key whose character codes are
non-negative, `hashFunction` returns the polynomial value
`c_0 * 31^(n-1) + ... + c_(n-1) * 31^0` reduced modulo `m`: the reduction at
every round of the loop gives the same result as one reduction of the exact
polynomial at the end (truncating and Euclidean remainder agree here, the
polynomial being non-negative), and the empty key hashes to 0. -/
theorem hashFunction_polynomial (m : Int) (hm : 0 < m) (key : CString)
    (hk : nonNegative key) :
    hashFunction m key = some (polynomial key % m) ∧
      hashFunction m key = some (Int.tmod (polynomial key) m) ∧
      hashFunction m [] = some 0 := by
  have hne : m ≠ 0 := by omega
  refine ⟨?_, ?_, ?_⟩
  · rw [hashFunction_eq_hashLoop hm hk, hashLoop_eq_polynomial hm hk]
  · rw [hashFunction_eq_hashLoop hm hk, hashLoop_eq_polynomial hm hk,
      Int.tmod_eq_emod (polynomial_nonneg key hk) (le_of_lt hm)]
  · simp [hashFunction, hne, hashLoop]

/-- Witness for C12: the key Springfield under the default capacity. -/
theorem hashFunction_polynomial_witness :
    hashFunction 101 springfield = some (polynomial springfield % 101) ∧
      hashFunction 101 springfield = some (Int.tmod (polynomial springfield) 101) ∧
      hashFunction 101 [] = some 0 :=
  hashFunction_polynomial 101 (by decide) springfield (by decide)

/-- C13: for every capacity `m > 0` and every key whose character codes are
non-negative, the accumulator of `hashFunction` lies in `[0, m)` after every
round of the loop (the accumulator after `n` rounds is the loop run on the
first `n` characters), the returned index `i` satisfies `0 <= i < m`, and the
final `% capacity` returns the accumulated value unchanged. -/
theorem hashFunction_in_range (m : Int) (hm : 0 < m) (key : CString)
    (hk : nonNegative key) :
    (∀ n : Nat, 0 ≤ hashLoop m (key.take n) ∧ hashLoop m (key.take n) < m) ∧
      (∃ i : Int, hashFunction m key = some i ∧ 0 ≤ i ∧ i < m) ∧
      Int.tmod (hashLoop m key) m = hashLoop m key ∧
      hashFunction m key = some (hashLoop m key) := by
  have hr := hashLoop_range hm hk
  refine ⟨fun n => hashLoop_range hm (nonNegative_take hk n), ?_,
    Int.tmod_eq_of_lt hr.1 hr.2, hashFunction_eq_hashLoop hm hk⟩
  exact ⟨hashLoop m key, hashFunction_eq_hashLoop hm hk, hr.1, hr.2⟩

/-- Witness for C13: the key Springfield under the default capacity. -/
theorem hashFunction_in_range_witness :
    (∀ n : Nat, 0 ≤ hashLoop 101 (springfield.take n) ∧
        hashLoop 101 (springfield.take n) < 101) ∧
      (∃ i : Int, hashFunction 101 springfield = some i ∧ 0 ≤ i ∧ i < 101) ∧
      Int.tmod (hashLoop 101 springfield) 101 = hashLoop 101 springfield ∧
      hashFunction 101 springfield = some (hashLoop 101 springfield) :=
  hashFunction_in_range 101 (by decide) springfield (by decide)

/-! ## The final remainder of `hashFunction` -/

/-- C17, refutation: there is no capacity `m > 0` and no key, with or without
negative character codes, on which `hashFunction` differs from the same function
without the final `% capacity`. -/
theorem final_remainder_never_differs :
    ¬ ∃ (m : Int) (key : CString), 0 < m ∧ (∃ c ∈ key, c < 0) ∧
        hashFunction m key ≠ some (hashLoop m key) := by
  rintro ⟨m, key, hm, _, hne⟩
  apply hne
  have hr := foldl_hashStep_abs_lt hm key 0 (by omega) hm
  have hm0 : m ≠ 0 := by omega
  simp only [hashFunction, hm0, if_false]
  exact congrArg some (tmod_of_abs_lt hr.1 hr.2)

/-- C17, amended: for every capacity `m > 0` and every key, also one that
contains characters outside the ASCII range (negative codes under signed `char`
and truncating remainder), the value left by the loop of `hashFunction` is
strictly between `-m` and `m`, so the final `% capacity` returns it unchanged:
`hashFunction` and the same function without the final remainder return the same
value, and dropping the final remainder changes no bucket index. -/
theorem final_remainder_is_identity (m : Int) (hm : 0 < m) (key : CString) :
    -m < hashLoop m key ∧ hashLoop m key < m ∧
      Int.tmod (hashLoop m key) m = hashLoop m key ∧
      hashFunction m key = some (hashLoop m key) := by
  have hr := foldl_hashStep_abs_lt hm key 0 (by omega) hm
  have hm0 : m ≠ 0 := by omega
  have ht : Int.tmod (hashLoop m key) m = hashLoop m key := tmod_of_abs_lt hr.1 hr.2
  refine ⟨hr.1, hr.2, ht, ?_⟩
  simp only [hashFunction, hm0, if_false]
  exact congrArg some ht

/-- Witness for C17: the key made of the byte `0xff` under the default
capacity. -/
theorem final_remainder_is_identity_witness :
    -101 < hashLoop 101 byteFF ∧ hashLoop 101 byteFF < 101 ∧
      Int.tmod (hashLoop 101 byteFF) 101 = hashLoop 101 byteFF ∧
      hashFunction 101 byteFF = some (hashLoop 101 byteFF) :=
  final_remainder_is_identity 101 (by decide) byteFF

/-! ## Keys with negative character codes -/

/-- C19: with `char` signed and `%` truncating, the one-character key of code
`-1` has the hash `-1` under the capacity 101, a negative value.  On the default
table `insert` of a record with that name, `findByName` and `findByNameAndState`
for that name then index the bucket array at `-1`, outside `[0, capacity)`, and
have no defined result.  A key with non-negative codes, here Springfield, has
its hash in `[0, capacity)`. -/
theorem negative_code_out_of_range :
    (0 : Int) < 101 ∧ (∃ c ∈ byteFF, c < 0) ∧
      hashFunction 101 byteFF = some (-1) ∧
      pushFront (List.replicate 101 []) (-1) (mkPlace 3 stateIL byteFF) = none ∧
      (HashTable.init 101).bind (fun t => insert t (mkPlace 3 stateIL byteFF)) = none ∧
      (HashTable.init 101).bind (fun t => findByName t byteFF) = none ∧
      (HashTable.init 101).bind (fun t => findByNameAndState t byteFF stateIL) = none ∧
      (HashTable.init 101).isSome = true ∧
      hashFunction 101 springfield = some 41 := by
  decide!

/-! ## Placement of the records in the buckets -/

/-- C16, counterexample: the default table holds the 76 numbered Springfield
records, so the next insert would call `resize`; the query is the one-character
name of code `-101` (the byte `0x9b`).  Under the capacity 101 its hash is 0 and
both lookups have a result (no record, absent); after `resize` its hash under the
capacity 202 is `-101`, and both lookups index the bucket array outside its
bounds: the results after the resize are not the results before it. -/
theorem resize_breaks_negative_query :
    hashFunction 101 byte9B = some 0 ∧ hashFunction 202 byte9B = some (-101) ∧
      (build 101 (numbered 76)).bind (fun t => findByName t byte9B) = some [] ∧
      (build 101 (numbered 76)).bind (fun t => findByNameAndState t byte9B stateIL)
        = some none ∧
      ((build 101 (numbered 76)).bind resize).map (fun t1 => (t1.capacity, t1.size))
        = some (202, 76) ∧
      ((build 101 (numbered 76)).bind resize).bind (fun t1 => findByName t1 byte9B)
        = none ∧
      ((build 101 (numbered 76)).bind resize).bind
        (fun t1 => findByNameAndState t1 byte9B stateIL) = none := by
  decide!

/-- C16, amended: for every table with capacity `c > 0` whose records have names
with non-negative character codes and sit in the bucket of their hash (as in
every table that the constructor and `insert` build), the table left by `resize`
has capacity exactly `2 * c` and the same size, and the records over all its
buckets are a permutation of the records before, each with its fields unchanged.
For every name whose character codes are non-negative, `findByName` after the
resize is a permutation of `findByName` before it, and `findByNameAndState`
returns a record after the resize exactly when it did before.  For any other
name the same holds whenever both lookups have a result.  `resize` leaves a table
whenever `2 * c` is still an `int`; with a larger `c` the doubling overflows and
there is no table after it. -/
theorem resize_lossless (t : HashTable) (hw : WellFormed t)
    (hp : Placed t.capacity t.table) (hn : namesNonNegative t.table.flatten) :
    (∀ t1, resize t = some t1 →
      t1.capacity = 2 * t.capacity ∧ t1.size = t.size ∧
      t1.table.flatten.Perm t.table.flatten ∧
      (∀ name, nonNegative name →
        ∃ res res1, findByName t name = some res ∧ findByName t1 name = some res1 ∧
          res1.Perm res) ∧
      (∀ name state, nonNegative name →
        ∃ r r1, findByNameAndState t name state = some r ∧
          findByNameAndState t1 name state = some r1 ∧
          (r1.isSome = true ↔ r.isSome = true)) ∧
      (∀ name res res1, findByName t name = some res → findByName t1 name = some res1 →
        res1.Perm res) ∧
      (∀ name state r r1, findByNameAndState t name state = some r →
        findByNameAndState t1 name state = some r1 →
        (r1.isSome = true ↔ r.isSome = true))) ∧
    (2 * t.capacity ≤ INT_MAX → ∃ t1, resize t = some t1) ∧
    (INT_MAX < 2 * t.capacity → resize t = none) := by
  have hpos := hw.capacity_pos
  refine ⟨?_, ?_, fun hov => resize_overflow (by omega)⟩
  · intro t1 hres
    have h1 := (resize_eq_some.1 hres).2
    obtain ⟨hcap, hsize⟩ := resizeIdeal_counters h1
    obtain ⟨hw1, hp1, hperm⟩ := resizeIdeal_spec hw h1
    have hfind : ∀ name res res1, findByName t name = some res →
        findByName t1 name = some res1 → res1.Perm res := by
      intro name res res1 hres hres1
      exact (findByName_perm hp1 hperm hres1).trans
        (findByName_perm hp (List.Perm.refl _) hres).symm
    have hstate : ∀ name state r r1, findByNameAndState t name state = some r →
        findByNameAndState t1 name state = some r1 →
        (r1.isSome = true ↔ r.isSome = true) := by
      intro name state r r1 hr hr1
      rw [(findByNameAndState_mem hp1 hperm hr1).1,
        (findByNameAndState_mem hp (List.Perm.refl _) hr).1]
    refine ⟨by rw [hcap]; ring, hsize, hperm, ?_, ?_, hfind, hstate⟩
    · intro name hq
      obtain ⟨res, hres⟩ := findByName_defined hw hq
      obtain ⟨res1, hres1⟩ := findByName_defined hw1 hq
      exact ⟨res, res1, hres, hres1, hfind name res res1 hres hres1⟩
    · intro name state hq
      obtain ⟨r, hr⟩ := findByNameAndState_defined hw state hq
      obtain ⟨r1, hr1⟩ := findByNameAndState_defined hw1 state hq
      exact ⟨r, r1, hr, hr1, hstate name state r r1 hr hr1⟩
  · intro hle
    obtain ⟨t1, h1⟩ := resizeIdeal_defined hw hn
    refine ⟨t1, resize_eq_some.2 ⟨⟨?_, by omega⟩, h1⟩⟩
    unfold INT_MIN
    omega

/-- Witness for C16: the default table with the two Springfield records. -/
theorem resize_lossless_witness :
    ∃ t t1, build 101 [springfieldIL, springfieldMA] = some t ∧ resize t = some t1 ∧
      t1.capacity = 2 * t.capacity ∧ t1.size = t.size ∧
      t1.table.flatten.Perm t.table.flatten ∧
      ∃ res res1, findByName t springfield = some res ∧
        findByName t1 springfield = some res1 ∧ res1.Perm res := by
  obtain ⟨t, ht⟩ := build_defined (c := 101) (by decide)
    (by decide : namesNonNegative [springfieldIL, springfieldMA]) ⟨0, by decide, by decide⟩
  obtain ⟨hw, hp, hperm, _, hle, _⟩ := build_spec (by decide) ht
  have hn : namesNonNegative t.table.flatten := by
    intro p hp
    exact (by decide : namesNonNegative [springfieldIL, springfieldMA]) p (hperm.mem_iff.1 hp)
  have h := resize_lossless t hw hp hn
  have hcap : t.capacity = 101 := by
    obtain ⟨_, hc⟩ := defaultSchedule_build (by decide) (build_refines ht)
    simpa [defaultSchedule] using hc
  obtain ⟨t1, h1⟩ := h.2.1 (by rw [hcap]; decide)
  obtain ⟨hc, hs, hpm, hf, _⟩ := h.1 t1 h1
  exact ⟨t, t1, ht, h1, hc, hs, hpm, hf springfield (by decide)⟩

/-! ## The load of the table -/

end GeoPlace
